import Mathlib

/-!
Verification of `src/shor.C`: the trial/retry orchestrator of the Shor simulator.

`src/shor.C` holds `main` only.  It includes `util.C` (`GCD`, `modexp`,
`TestPrime`, `TestPrimePower`, `GetQ`, `denominator`, ...) and `complex.C`,
and it drives the register simulator (`QuReg`, `DFT`); none of these files is
part of the sources.  `main` is therefore embedded over an arbitrary
implementation `U : Util` of the helpers, statements about `main` assume the
contract of the spec for the helpers they depend on, and `util` is the
implementation modelled from the spec (each such definition says so).  The
results of the floating-point pipeline of one trial (the two register
measurements and the continued-fraction denominator) are inputs of the model.

Conventions of the embedding:

* C `int` is `Int`; C `%` and `/` on `int` are `Int.tmod` and `Int.tdiv`
  (truncation towards zero).  Every intermediate value of `main` is bounded by
  `2 * n`, so no wrap-around is modelled.
* Arrays are total maps from the index to the element.
* `rand()` is an explicit list of draws.  The expression of lines 51 and 53 is
  evaluated in IEEE double arithmetic: the conversions of `n - 1`, `rand()` and
  `RAND_MAX` are exact (they are `int` values), the product and the quotient
  are each rounded to the nearest double (53-bit significand, ties to even),
  and the cast `(int)` drops the fractional part.  The exponent range of
  doubles is not modelled; the values here lie far inside it.
* Amplitudes are pairs of exact rationals.
-/

namespace Shor

/-! ## Number theory utilities (util.C) -/

/-- Modelled from the spec: the reduction loop of `gcd(a, b)` (util.C is not
part of the sources).  Euclidean algorithm; a step that would take a modulus
with a zero divisor yields the undefined signal `-1`, and a defined result is
the non-negative greatest common divisor. -/
def GCDLoop : Nat → Int → Int → Int
  | 0, _, _ => -1
  | fuel + 1, a, b =>
    if b = 0 then -1
    else if a.tmod b = 0 then (b.natAbs : Int)
    else GCDLoop fuel b (a.tmod b)

/-- Modelled from the spec: `gcd(a, b)` of util.C, "Euclidean algorithm" that
returns the undefined signal `-1` when the reduction takes a modulus with a
zero divisor.  The remainders strictly decrease in absolute value, so
`|b| + 1` rounds are enough. -/
def GCD (a b : Int) : Int :=
  GCDLoop (b.natAbs + 1) a b

/-- Modelled from the spec: the loop of `mod_pow`, exponentiation by repeated
squaring with a modular reduction after every multiplication. -/
def modexpLoop : Nat → Int → Int → Int → Int → Int
  | 0, value, _, _, _ => value
  | fuel + 1, value, tmp, a, n =>
    if 0 < a then
      modexpLoop fuel (if a % 2 = 1 then (value * tmp) % n else value)
        ((tmp * tmp) % n) (a / 2) n
    else value

/-- Modelled from the spec: `mod_pow(base, exponent, modulus)` of util.C;
exponent `0` returns `1 mod modulus`. -/
def modexp (x a n : Int) : Int :=
  modexpLoop a.toNat (1 % n) (x % n) a n

/-- Modelled from the spec: `is_prime(n)` of util.C, the deterministic test the
spec names, trial division up to the square root of `n`: `n` is reported prime
when no `i` with `2 ≤ i` and `i * i ≤ n` divides it.  For `n ≥ 2` this is
primality; an `n` below 2 has no trial divisor. -/
def TestPrime (n : Int) : Bool :=
  (List.range n.toNat).all (fun i => decide (i < 2) || decide (n.toNat < i * i) ||
    decide (n.toNat % i ≠ 0))

/-- Modelled from the spec: `is_prime_power(n)` of util.C, true if `n = p^k`
for some prime `p` and integer `k ≥ 2`. -/
def TestPrimePower (n : Int) : Bool :=
  (List.range n.toNat).any (fun p => TestPrime (p : Int) &&
    (List.range n.toNat).any (fun k => decide (2 ≤ k) && decide (((p ^ k : Nat) : Int) = n)))

/-- Modelled from the spec: the doubling loop of `required_q`. -/
def GetQLoop : Nat → Nat → Nat → Nat
  | 0, q, _ => q
  | fuel + 1, q, t => if q < t then GetQLoop fuel (2 * q) t else q

/-- Modelled from the spec: `required_q(n)` of util.C, the smallest power of
two `q` with `n² ≤ q`. -/
def GetQ (n : Int) : Nat :=
  GetQLoop (n * n).toNat 1 (n * n).toNat

/-- The helpers of util.C that `main` calls.  The file is not part of the
sources, so `main` is embedded over an arbitrary implementation of them;
`util` below is the implementation modelled from the spec. -/
structure Util where
  GCD : Int → Int → Int
  modexp : Int → Int → Int → Int
  TestPrime : Int → Bool
  TestPrimePower : Int → Bool
  GetQ : Int → Nat

/-- Modelled from the spec: the helpers of util.C as the spec describes them. -/
def util : Util :=
  ⟨GCD, modexp, TestPrime, TestPrimePower, GetQ⟩

/-- Contract of `gcd` in the spec: undefined signal `-1` when the second
argument is zero, the true greatest common divisor otherwise. -/
def Util.GCDSpec (U : Util) : Prop :=
  ∀ a b : Int, U.GCD a b = if b = 0 then -1 else (Int.gcd a b : Int)

/-- Contract of `mod_pow` in the spec, range part: the result lies in `[0, n)`. -/
def Util.modexpRange (U : Util) : Prop :=
  ∀ x a n : Int, 0 < n → 0 ≤ U.modexp x a n ∧ U.modexp x a n < n

/-- Contract of `mod_pow` in the spec, value part: the result is `x^a mod n`. -/
def Util.modexpSpec (U : Util) : Prop :=
  ∀ x a n : Int, 0 ≤ a → 0 < n → U.modexp x a n = x ^ a.toNat % n

/-! ## Complex amplitudes (complex.C) -/

/-- Modelled from the spec: the complex amplitude of complex.C, a pair of real
components.  The components are exact rationals here. -/
structure Complex where
  re : ℚ
  im : ℚ
deriving DecidableEq

/-- Modelled from the spec: component-wise addition of complex.C. -/
def Complex.add (a b : Complex) : Complex :=
  ⟨a.re + b.re, a.im + b.im⟩

/-- Modelled from the spec: complex multiplication, used by the transform. -/
def Complex.mul (a b : Complex) : Complex :=
  ⟨a.re * b.re - a.im * b.im, a.re * b.im + a.im * b.re⟩

/-- Modelled from the spec: magnitude-squared, the measurement weight. -/
def Complex.normSq (a : Complex) : ℚ :=
  a.re * a.re + a.im * a.im

/-! ## main: validation and base selection (lines 27-55) -/

/-- Lines of output of `main` that matter for control flow. -/
inductive Msg
  | errorEven
  | errorPrime
  | errorPrimePower
  | foundX (x : Int)
  | foundQ (q : Nat)
  | giveUp
  | beginDFT
  | measuredZero
  | measureFailed
  | approximation (m den : Int)
  | oddDenominator
  | oddPeriod
  | possiblePeriod (den : Int)
  | candidates (a b : Int)
  | modZero
  | trivialFactors (n : Int)
  | factors (n factor cofactor : Int)
  | factorZero
deriving DecidableEq

/-- Lines 29-45: the three checks on `n`, in order.  `some msg` is the error
line printed before `exit(0)`; `none` means that `main` goes on. -/
def validate (U : Util) (n : Int) : Option Msg :=
  if n.tmod 2 = 0 then some Msg.errorEven
  else if U.TestPrime n then some Msg.errorPrime
  else if U.TestPrimePower n then some Msg.errorPrimePower
  else none

/-- Rounding of the exact quotient `a / d` to the nearest integer, ties to the
even one: the rounding of a significand in IEEE arithmetic. -/
def roundHalfEven (a d : Nat) : Nat :=
  if 2 * (a % d) < d then a / d
  else if d < 2 * (a % d) then a / d + 1
  else if (a / d) % 2 = 0 then a / d else a / d + 1

/-- The loop of `ilog2`; the first argument bounds the number of halvings. -/
def log2Loop : Nat → Nat → Nat
  | 0, _ => 0
  | fuel + 1, n => if 2 ≤ n then log2Loop fuel (n / 2) + 1 else 0

/-- The exponent of the leading bit of `n`: `2 ^ ilog2 n ≤ n < 2 ^ (ilog2 n + 1)`
for `n ≠ 0`. -/
def ilog2 (n : Nat) : Nat :=
  log2Loop n n

/-- The double nearest to the integer `p`, which is again an integer: `p`
itself below `2^53`, and otherwise `p` rounded to 53 significant bits.  This is
the product `(n-1) * (double)rand()` of lines 51 and 53, whose exact value is
`p`. -/
def flProduct (p : Nat) : Nat :=
  if p < 2 ^ 53 then p
  else roundHalfEven p (2 ^ (ilog2 p - 52)) * 2 ^ (ilog2 p - 52)

/-- The scaling of the quotient `a / b`.  With `E` the leading exponent of the
quotient (`2^E ≤ a/b < 2^(E+1)`), the significand is the quotient times
`2^(52 - E)`, and `quotientExp a b` is `ilog2 a + 52 - E`: the quotient is scaled
up by `2^(quotientExp a b - ilog2 a)`, or down by `2^(ilog2 a - quotientExp a b)`.
`E` is `ilog2 a - ilog2 b`, less one when `a / 2^(ilog2 a) < b / 2^(ilog2 b)`. -/
def quotientExp (a b : Nat) : Nat :=
  ilog2 b + 52 + (if a * 2 ^ ilog2 b < b * 2 ^ ilog2 a then 1 else 0)

/-- The value of `(int)(a / b)` for doubles `a`, `b` holding non-negative
integers, `b ≠ 0`: the exact quotient is rounded to 53 significant bits and
the cast drops the fractional part of the rounded quotient. -/
def castQuotient (a b : Nat) : Nat :=
  if a = 0 then 0
  else if quotientExp a b ≤ ilog2 a then
    roundHalfEven a (b * 2 ^ (ilog2 a - quotientExp a b)) * 2 ^ (ilog2 a - quotientExp a b)
  else
    roundHalfEven (a * 2 ^ (quotientExp a b - ilog2 a)) b / 2 ^ (quotientExp a b - ilog2 a)

/-- Lines 51 and 53: `1 + (int)((n-1)*(double)rand()/(double)RAND_MAX)` for the
draw `r`, evaluated in double arithmetic as the code does: the product is
rounded, then the quotient is rounded, then the cast truncates towards zero.
Rounding and truncation are symmetric in the sign.  `RAND_MAX` is positive;
a division by zero is not modelled. -/
def sample (RAND_MAX n r : Int) : Int :=
  1 + ((n - 1) * r).sign * RAND_MAX.sign *
    (castQuotient (flProduct ((n - 1) * r).natAbs) RAND_MAX.natAbs : Int)

/-- Line 52-54: the rejection loop, entered with the current `x` and the draws
still to come.  Returns the accepted `x` and the number of draws the loop
used, or `none` when the loop is still running after the last draw. -/
def pickLoop (U : Util) (RAND_MAX n : Int) : List Int → Int → Option (Int × Nat)
  | [], x => if U.GCD n x ≠ 1 ∨ x = 1 then none else some (x, 0)
  | r :: rs, x =>
    if U.GCD n x ≠ 1 ∨ x = 1 then
      (pickLoop U RAND_MAX n rs (sample RAND_MAX n r)).map (fun p => (p.1, p.2 + 1))
    else some (x, 0)

/-- Lines 50-54: base selection.  Returns the base and the number of calls of
`rand()` it made. -/
def pickBase (U : Util) (RAND_MAX n : Int) : List Int → Option (Int × Nat)
  | [] => none
  | r :: rs => (pickLoop U RAND_MAX n rs (sample RAND_MAX n r)).map (fun p => (p.1, p.2 + 1))

/-! ## main: one trial (lines 133-293) -/

/-- What the floating-point pipeline of one trial hands back to the integer
control flow: `value = reg2->DecMeasure()` (line 177),
`m = reg1->DecMeasure()` (line 203) and `den = denominator(c, q)` (line 232). -/
structure Meas where
  value : Int
  m : Int
  den : Int

/-- The variables of `main` that are live across iterations of the loop. -/
structure Vars where
  x : Int
  done : Int
  tries : Int
  factor : Int
  modex : Nat → Int
  mdx : Int → Complex
  collapse : Nat → Complex

/-- Lines 155-166: the loop over `i = 0 .. q-1`; the first argument is the
number of indices processed.  `modex[i] = tmpval` and
`mdx[tmpval] = mdx[tmpval] + tmp` with `tmp = (1, 0)`. -/
def entangle (U : Util) (x n : Int) : Nat → (Nat → Int) × (Int → Complex) →
    (Nat → Int) × (Int → Complex)
  | 0, s => s
  | i + 1, s =>
    let s1 := entangle U x n i s
    let tmpval := U.modexp x (i : Int) n
    (Function.update s1.1 i tmpval,
      Function.update s1.2 tmpval ((s1.2 tmpval).add ⟨1, 0⟩))

/-- Lines 182-188: the loop that fills `collapse` from `modex` and `value`. -/
def collapseLoop (modex : Nat → Int) (value : Int) : Nat → (Nat → Complex) → (Nat → Complex)
  | 0, c => c
  | i + 1, c =>
    Function.update (collapseLoop modex value i c) i
      (if modex i = value then ⟨1, 0⟩ else ⟨0, 0⟩)

/-- Lines 243-247: an odd denominator is doubled when `2 * den < q`. -/
def expandDen (q : Nat) (den : Int) : Int :=
  if den.tmod 2 = 1 ∧ 2 * den < (q : Int) then 2 * den else den

/-- Lines 259-266: `factor = max(GCD(n,a), GCD(n,b))` for the period
candidate `den`. -/
def computeFactor (U : Util) (n x den : Int) : Int :=
  let e := U.modexp x (den.tdiv 2) n
  let a := (e + 1).tmod n
  let b := (e + n - 1).tmod n
  max (U.GCD n a) (U.GCD n b)

/-- Lines 206-220: `done = 1`, then cleared when `m == 0`, then cleared when
`m == -1`. -/
def doneMeasured (ms : Meas) : Int :=
  let done : Int := 1
  let done : Int := if ms.m = 0 then 0 else done
  if ms.m = -1 then 0 else done

/-- Lines 224-256: inside `if (done)`, `done` is cleared when the period
candidate is still odd after the expansion. -/
def donePeriod (q : Nat) (ms : Meas) : Int :=
  if doneMeasured ms ≠ 0 then
    (if (expandDen q ms.den).tmod 2 = 1 then 0 else doneMeasured ms)
  else doneMeasured ms

/-- Lines 224-268: the value of `factor` after the `if (done)` block.  Inside
the block it is reset to `0` (line 250) and, for an even period candidate,
assigned `max(GCD(n,a), GCD(n,b))` (line 266); when the block is skipped it
keeps the value it had before the trial. -/
def factorComputed (U : Util) (n : Int) (q : Nat) (ms : Meas) (s : Vars) : Int :=
  if doneMeasured ms ≠ 0 then
    (if (expandDen q ms.den).tmod 2 = 1 then 0
     else computeFactor U n s.x (expandDen q ms.den))
  else s.factor

/-- Lines 273-276: `if (factor == -1) done = 0`. -/
def doneModZero (U : Util) (n : Int) (q : Nat) (ms : Meas) (s : Vars) : Int :=
  if factorComputed U n q ms s = -1 then 0 else donePeriod q ms

/-- Lines 278-282: `if ((factor == n || factor == 1) && done == 1) done = 0`. -/
def doneTrivial (U : Util) (n : Int) (q : Nat) (ms : Meas) (s : Vars) : Int :=
  if (factorComputed U n q ms s = n ∨ factorComputed U n q ms s = 1) ∧
      doneModZero U n q ms s = 1 then 0
  else doneModZero U n q ms s

/-- Lines 286-292: the success line is printed when `factor != 0 && done == 1`;
otherwise `done` is cleared when it was `1`. -/
def doneReport (U : Util) (n : Int) (q : Nat) (ms : Meas) (s : Vars) : Int :=
  if factorComputed U n q ms s ≠ 0 ∧ doneTrivial U n q ms s = 1 then doneTrivial U n q ms s
  else if doneTrivial U n q ms s = 1 then 0
  else doneTrivial U n q ms s

/-- Lines 197-292: the lines one trial prints, in order. -/
def trialOut (U : Util) (n : Int) (q : Nat) (ms : Meas) (s : Vars) : List Msg :=
  [Msg.beginDFT]
  ++ (if ms.m = 0 then [Msg.measuredZero] else [])
  ++ (if ms.m = -1 then [Msg.measureFailed] else [])
  ++ (if doneMeasured ms ≠ 0 then
        [Msg.approximation ms.m ms.den]
        ++ (if ms.den.tmod 2 = 1 ∧ 2 * ms.den < (q : Int) then [Msg.oddDenominator] else [])
        ++ (if (expandDen q ms.den).tmod 2 = 1 then [Msg.oddPeriod]
            else [Msg.possiblePeriod (expandDen q ms.den),
                  Msg.candidates
                    ((U.modexp s.x ((expandDen q ms.den).tdiv 2) n + 1).tmod n)
                    ((U.modexp s.x ((expandDen q ms.den).tdiv 2) n + n - 1).tmod n)])
      else [])
  ++ (if factorComputed U n q ms s = -1 then [Msg.modZero] else [])
  ++ (if (factorComputed U n q ms s = n ∨ factorComputed U n q ms s = 1) ∧
          doneModZero U n q ms s = 1 then [Msg.trivialFactors n] else [])
  ++ (if factorComputed U n q ms s ≠ 0 ∧ doneTrivial U n q ms s = 1 then
        [Msg.factors n (factorComputed U n q ms s) (n.tdiv (factorComputed U n q ms s))]
      else if doneTrivial U n q ms s = 1 then [Msg.factorZero] else [])

/-- Lines 133-293: the body of the loop, one trial.  Returns the variables at
the end of the body and the lines printed.  The integer control flow of lines
203-292 is `doneMeasured` ... `doneReport`, one definition per statement that
assigns `done`. -/
def trialBody (U : Util) (n : Int) (q : Nat) (ms : Meas) (s : Vars) : Vars × List Msg :=
  -- lines 155-166
  let built := entangle U s.x n q (s.modex, s.mdx)
  -- lines 177-188
  let collapse := collapseLoop built.1 ms.value q s.collapse
  -- lines 203-293
  ({ x := s.x, done := doneReport U n q ms s, tries := s.tries + 1,
     factor := factorComputed U n q ms s,
     modex := built.1, mdx := built.2, collapse := collapse },
   trialOut U n q ms s)

/-! ## main: the retry loop and the whole run -/

/-- One execution of the loop body, as recorded in a run. -/
structure Trial where
  /-- The base `x` the trial read. -/
  x : Int
  /-- The variables at the end of the body. -/
  vars : Vars
  /-- The lines the trial printed. -/
  out : List Msg

/-- How a run ends. -/
inductive Exit
  /-- One of the three checks on `n` called `exit(0)`. -/
  | rejected
  /-- The rejection loop of base selection was still running after the last draw. -/
  | pickingBase
  /-- Line 130: `exit(0)` after five failures. -/
  | gaveUp
  /-- Line 300: the loop ended with `done` set, `return 1`. -/
  | returned
  /-- The loop was still running when the step budget of the model ran out. -/
  | unfinished
deriving DecidableEq

/-- The observable course of one run. -/
structure Run where
  /-- Number of calls of `rand()` that assigned `x` (lines 51 and 53). -/
  picks : Nat
  /-- The executions of the loop body, in order. -/
  trials : List Trial
  /-- The lines printed, in order. -/
  out : List Msg
  exit : Exit

/-- A trial ended in RETRY when it cleared `done`. -/
def Trial.retry (t : Trial) : Prop :=
  t.vars.done = 0

instance (t : Trial) : Decidable t.retry :=
  inferInstanceAs (Decidable (t.vars.done = 0))

/-- Lines 127-294: `while (!done)`.  The first argument bounds the number of
evaluations of the loop condition; `meas k` is what the pipeline returns in
the trial started with `tries = k`. -/
def mainLoop (U : Util) (n : Int) (q : Nat) (meas : Nat → Meas) (picks : Nat) :
    Nat → Vars → Run
  | 0, _ => ⟨picks, [], [], Exit.unfinished⟩
  | fuel + 1, s =>
    if s.done ≠ 0 then ⟨picks, [], [], Exit.returned⟩
    else if 5 ≤ s.tries then ⟨picks, [], [Msg.giveUp], Exit.gaveUp⟩
    else
      let r := trialBody U n q (meas s.tries.toNat) s
      let rest := mainLoop U n q meas picks fuel r.1
      ⟨rest.picks, ⟨s.x, r.1, r.2⟩ :: rest.trials, r.2 ++ rest.out, rest.exit⟩

/-- Values of the variables that `main` declares without initialising them. -/
structure Garbage where
  factor : Int
  modex : Nat → Int

/-- Lines 125-126 and the declarations before them: the variables on entry to
the loop.  `new Complex[...]` yields zero amplitudes. -/
def initVars (g : Garbage) (x : Int) : Vars :=
  { x := x, done := 0, tries := 0, factor := g.factor, modex := g.modex,
    mdx := fun _ => ⟨0, 0⟩, collapse := fun _ => ⟨0, 0⟩ }

/-- The program `main`, for the input `n`, the draws `rands` that base selection
may use, the results `meas` of the floating-point pipeline per trial, and a
bound `fuel` on the evaluations of the loop condition. -/
def main (U : Util) (RAND_MAX : Int) (g : Garbage) (n : Int) (rands : List Int)
    (meas : Nat → Meas) (fuel : Nat) : Run :=
  match validate U n with
  | some e => ⟨0, [], [e], Exit.rejected⟩
  | none =>
    match pickBase U RAND_MAX n rands with
    | none => ⟨rands.length, [], [], Exit.pickingBase⟩
    | some (x, k) =>
      let q := U.GetQ n
      let r := mainLoop U n q meas k fuel (initVars g x)
      ⟨r.picks, r.trials, [Msg.foundX x, Msg.foundQ q] ++ r.out, r.exit⟩

/-- The program rejects `n`: whatever the other inputs, the run ends by the
`exit(0)` of one of the three checks, before any call of `rand()` assigns `x`
and before any trial. -/
def Rejects (U : Util) (n : Int) : Prop :=
  ∀ (RAND_MAX : Int) (g : Garbage) (rands : List Int) (meas : Nat → Meas) (fuel : Nat),
    (main U RAND_MAX g n rands meas fuel).exit = Exit.rejected ∧
    (main U RAND_MAX g n rands meas fuel).picks = 0 ∧
    (main U RAND_MAX g n rands meas fuel).trials = []

/-! ## Register simulator and transform, as used on register one (lines 193-203) -/

/-- Results of the floating-point library functions that the register code
calls, taken as given: the reciprocal square root, and the phase factor
`e^(2πi·jk/q)` for `q`, `j`, `k`. -/
structure FloatLib where
  rsqrt : ℚ → ℚ
  phase : Nat → Nat → Nat → Complex

/-- Modelled from the spec: a register, an ordered sequence of `size` complex
amplitudes. -/
structure QuReg where
  size : Nat
  State : Nat → Complex

/-- Modelled from the spec: `set_state(amplitudes)` overwrites the amplitude
vector of the register from the vector supplied by the caller. -/
def QuReg.SetState (r : QuReg) (amplitudes : Nat → Complex) : QuReg :=
  ⟨r.size, amplitudes⟩

/-- Sum of the squared magnitudes of the first `k` amplitudes. -/
def sumNormSq (st : Nat → Complex) : Nat → ℚ
  | 0 => 0
  | k + 1 => sumNormSq st k + (st k).normSq

/-- Modelled from the spec: `normalize()` rescales every amplitude by
`1/sqrt(Σ|amplitude|²)`; the zero vector is left unchanged. -/
def QuReg.Norm (F : FloatLib) (r : QuReg) : QuReg :=
  if sumNormSq r.State r.size = 0 then r
  else ⟨r.size, fun i =>
    ⟨(r.State i).re * F.rsqrt (sumNormSq r.State r.size),
     (r.State i).im * F.rsqrt (sumNormSq r.State r.size)⟩⟩

/-- The sum `Σ_{j<m} old[j] · e^(2πi·jk/q)` of the transform. -/
def dftSum (F : FloatLib) (q : Nat) (old : Nat → Complex) (k : Nat) : Nat → Complex
  | 0 => ⟨0, 0⟩
  | j + 1 => (dftSum F q old k j).add ((old j).mul (F.phase q j k))

/-- Modelled from the spec: `dft(register, q)` replaces the first `q`
amplitudes with `new[k] = (1/sqrt(q)) · Σ_{j<q} old[j] · e^(2πi·jk/q)`. -/
def DFT (F : FloatLib) (r : QuReg) (q : Nat) : QuReg :=
  ⟨r.size, fun k =>
    if k < q then
      ⟨(dftSum F q r.State k q).re * F.rsqrt q, (dftSum F q r.State k q).im * F.rsqrt q⟩
    else r.State k⟩

/-- Modelled from the spec: the walk of `measure()` over the basis states in
index order, `k` states left, at index `i`, with cumulative probability `cum`:
the first index where the cumulative probability meets or exceeds `u`, and
`-1` when the last index is passed. -/
def measureLoop (st : Nat → Complex) (u : ℚ) : Nat → Nat → ℚ → Int
  | 0, _, _ => -1
  | k + 1, i, cum =>
    if u ≤ cum + (st i).normSq then (i : Int)
    else measureLoop st u k (i + 1) (cum + (st i).normSq)

/-- Modelled from the spec: `measure()` for the uniform draw `u` in `[0, 1)`. -/
def QuReg.DecMeasure (r : QuReg) (u : ℚ) : Int :=
  measureLoop r.State u r.size 0 0

/-- Lines 193-203: `reg1->SetState(collapse); reg1->Norm(); DFT(reg1, q);
m = reg1->DecMeasure()`, for register one of `q` amplitudes and the uniform
draw `u` of the measurement. -/
def measureReg1 (F : FloatLib) (q : Nat) (collapse : Nat → Complex) (u : ℚ) : Int :=
  (DFT F (((⟨q, fun _ => ⟨0, 0⟩⟩ : QuReg).SetState collapse).Norm F) q).DecMeasure u

/-! ## The helpers modelled from the spec meet the contracts of the spec -/

theorem natAbs_tmod (a b : Int) : (a.tmod b).natAbs = a.natAbs % b.natAbs := by
  cases a <;> cases b <;> simp [Int.tmod, Int.natAbs_neg] <;> rfl

theorem GCDLoop_eq (fuel : Nat) : ∀ a b : Int, b ≠ 0 → b.natAbs < fuel →
    GCDLoop fuel a b = (Int.gcd a b : Int) := by
  induction fuel with
  | zero => intro a b _ h; omega
  | succ k ih =>
    intro a b hb hk
    simp only [GCDLoop, if_neg hb]
    by_cases h0 : a.tmod b = 0
    · rw [if_pos h0, Int.gcd_eq_right (Int.dvd_of_tmod_eq_zero h0)]
    · rw [if_neg h0]
      have hlt : (a.tmod b).natAbs < b.natAbs := by
        rw [natAbs_tmod]
        exact Nat.mod_lt _ (Int.natAbs_pos.mpr hb)
      rw [ih b (a.tmod b) h0 (by omega)]
      congr 1
      rw [Int.gcd_eq_natAbs, Int.gcd_eq_natAbs, natAbs_tmod, Nat.gcd_comm a.natAbs,
        Nat.gcd_rec b.natAbs a.natAbs, Nat.gcd_comm]

theorem util_GCDSpec : util.GCDSpec := by
  intro a b
  show GCD a b = _
  by_cases h : b = 0
  · subst h; simp [GCD, GCDLoop]
  · rw [if_neg h]
    exact GCDLoop_eq _ a b h (Nat.lt_succ_self _)

theorem modexpLoop_eq (n : Int) (fuel : Nat) : ∀ (a : Nat) (v t : Int), a ≤ fuel →
    modexpLoop fuel (v % n) t (a : Int) n = (v * t ^ a) % n := by
  induction fuel with
  | zero =>
    intro a v t h
    have : a = 0 := by omega
    subst this
    simp [modexpLoop]
  | succ k ih =>
    intro a v t h
    by_cases ha : a = 0
    · subst ha; simp [modexpLoop]
    · have hpos : (0 : Int) < (a : Int) := by exact_mod_cast Nat.pos_of_ne_zero ha
      have hdiv : (a : Int) / 2 = ((a / 2 : Nat) : Int) := by norm_cast
      have hsq : ∀ w : Int, (w * (t * t % n) ^ (a / 2)) % n = (w * (t * t) ^ (a / 2)) % n := by
        intro w
        exact Int.ModEq.mul_left w (Int.ModEq.pow _ (Int.mod_modEq _ _))
      simp only [modexpLoop, if_pos hpos, hdiv]
      by_cases hodd : (a : Int) % 2 = 1
      · rw [if_pos hodd]
        have h1 : (v % n * t) % n = (v * t) % n := by
          exact Int.ModEq.mul_right t (Int.mod_modEq _ _)
        rw [h1, ih (a / 2) (v * t) (t * t % n) (by omega), hsq]
        have ha2 : a = 2 * (a / 2) + 1 := by omega
        conv_rhs => rw [ha2]
        congr 1
        ring
      · rw [if_neg hodd, ih (a / 2) v (t * t % n) (by omega), hsq]
        have ha2 : a = 2 * (a / 2) := by omega
        conv_rhs => rw [ha2]
        congr 1
        ring

theorem modexp_eq (x n : Int) (a : Nat) : modexp x (a : Int) n = x ^ a % n := by
  unfold modexp
  rw [Int.toNat_ofNat, modexpLoop_eq n a a 1 (x % n) le_rfl, one_mul]
  exact Int.ModEq.pow _ (Int.mod_modEq _ _)

theorem util_modexpSpec : util.modexpSpec := by
  intro x a n ha _
  lift a to ℕ using ha
  show modexp x (a : Int) n = _
  rw [modexp_eq, Int.toNat_ofNat]

theorem util_modexpRange : util.modexpRange := by
  intro x a n hn
  show 0 ≤ modexp x a n ∧ modexp x a n < n
  by_cases ha : 0 ≤ a
  · lift a to ℕ using ha
    rw [modexp_eq]
    exact ⟨Int.emod_nonneg _ hn.ne', Int.emod_lt_of_pos _ hn⟩
  · have : a.toNat = 0 := by omega
    unfold modexp
    rw [this]
    simp only [modexpLoop]
    exact ⟨Int.emod_nonneg _ hn.ne', Int.emod_lt_of_pos _ hn⟩

/-! ## One trial: when it succeeds and what it prints -/

theorem doneMeasured_cases (ms : Meas) : doneMeasured ms = 0 ∨ doneMeasured ms = 1 := by
  unfold doneMeasured
  split_ifs <;> simp

theorem doneMeasured_eq_one (ms : Meas) : doneMeasured ms = 1 ↔ ms.m ≠ 0 ∧ ms.m ≠ -1 := by
  unfold doneMeasured
  split_ifs <;> simp [*]

theorem donePeriod_cases (q : Nat) (ms : Meas) : donePeriod q ms = 0 ∨ donePeriod q ms = 1 := by
  unfold donePeriod
  rcases doneMeasured_cases ms with h | h <;> split_ifs <;> simp [h]

theorem donePeriod_eq_one (q : Nat) (ms : Meas) :
    donePeriod q ms = 1 ↔ doneMeasured ms = 1 ∧ (expandDen q ms.den).tmod 2 ≠ 1 := by
  unfold donePeriod
  rcases doneMeasured_cases ms with h | h <;> split_ifs <;> simp_all

theorem doneModZero_cases (U : Util) (n : Int) (q : Nat) (ms : Meas) (s : Vars) :
    doneModZero U n q ms s = 0 ∨ doneModZero U n q ms s = 1 := by
  unfold doneModZero
  split_ifs
  · simp
  · exact donePeriod_cases q ms

theorem doneModZero_eq_one (U : Util) (n : Int) (q : Nat) (ms : Meas) (s : Vars) :
    doneModZero U n q ms s = 1 ↔ donePeriod q ms = 1 ∧ factorComputed U n q ms s ≠ -1 := by
  unfold doneModZero
  split_ifs <;> simp_all

theorem doneTrivial_cases (U : Util) (n : Int) (q : Nat) (ms : Meas) (s : Vars) :
    doneTrivial U n q ms s = 0 ∨ doneTrivial U n q ms s = 1 := by
  unfold doneTrivial
  split_ifs
  · simp
  · exact doneModZero_cases U n q ms s

theorem doneTrivial_eq_one (U : Util) (n : Int) (q : Nat) (ms : Meas) (s : Vars) :
    doneTrivial U n q ms s = 1 ↔ doneModZero U n q ms s = 1 ∧
      factorComputed U n q ms s ≠ n ∧ factorComputed U n q ms s ≠ 1 := by
  unfold doneTrivial
  split_ifs with h
  · simp only [zero_ne_one, false_iff]; tauto
  · tauto

theorem doneReport_cases (U : Util) (n : Int) (q : Nat) (ms : Meas) (s : Vars) :
    doneReport U n q ms s = 0 ∨ doneReport U n q ms s = 1 := by
  unfold doneReport
  split_ifs
  · exact doneTrivial_cases U n q ms s
  · simp
  · exact doneTrivial_cases U n q ms s

theorem doneReport_eq_one (U : Util) (n : Int) (q : Nat) (ms : Meas) (s : Vars) :
    doneReport U n q ms s = 1 ↔ doneTrivial U n q ms s = 1 ∧ factorComputed U n q ms s ≠ 0 := by
  unfold doneReport
  split_ifs with h1 h2
  · tauto
  · simp only [zero_ne_one, false_iff]; tauto
  · tauto

theorem factorComputed_of_measured (U : Util) (n : Int) (q : Nat) (ms : Meas) (s : Vars)
    (h1 : doneMeasured ms = 1) (h2 : (expandDen q ms.den).tmod 2 ≠ 1) :
    factorComputed U n q ms s = computeFactor U n s.x (expandDen q ms.den) := by
  unfold factorComputed
  simp [h1, h2]

/-- The conditions under which the body leaves `done` set. -/
theorem trialBody_done_iff (U : Util) (n : Int) (q : Nat) (ms : Meas) (s : Vars) :
    (trialBody U n q ms s).1.done ≠ 0 ↔
      ms.m ≠ 0 ∧ ms.m ≠ -1 ∧ (expandDen q ms.den).tmod 2 ≠ 1 ∧
      computeFactor U n s.x (expandDen q ms.den) ≠ -1 ∧
      computeFactor U n s.x (expandDen q ms.den) ≠ n ∧
      computeFactor U n s.x (expandDen q ms.den) ≠ 1 ∧
      computeFactor U n s.x (expandDen q ms.den) ≠ 0 := by
  show doneReport U n q ms s ≠ 0 ↔ _
  have hc := doneReport_cases U n q ms s
  have h1 : doneReport U n q ms s ≠ 0 ↔ doneReport U n q ms s = 1 := by
    rcases hc with h | h <;> simp [h]
  rw [h1, doneReport_eq_one, doneTrivial_eq_one, doneModZero_eq_one, donePeriod_eq_one,
    doneMeasured_eq_one]
  constructor
  · rintro ⟨⟨⟨⟨⟨ha, hb⟩, hc⟩, hd⟩, he, hf⟩, hg⟩
    have hm : doneMeasured ms = 1 := (doneMeasured_eq_one ms).mpr ⟨ha, hb⟩
    rw [factorComputed_of_measured U n q ms s hm hc] at hd he hf hg
    exact ⟨ha, hb, hc, hd, he, hf, hg⟩
  · rintro ⟨ha, hb, hc, hd, he, hf, hg⟩
    have hm : doneMeasured ms = 1 := (doneMeasured_eq_one ms).mpr ⟨ha, hb⟩
    rw [factorComputed_of_measured U n q ms s hm hc]
    exact ⟨⟨⟨⟨⟨ha, hb⟩, hc⟩, hd⟩, he, hf⟩, hg⟩

/-- The body leaves `done` at `0` or `1`. -/
theorem trialBody_done_cases (U : Util) (n : Int) (q : Nat) (ms : Meas) (s : Vars) :
    (trialBody U n q ms s).1.done = 0 ∨ (trialBody U n q ms s).1.done = 1 :=
  doneReport_cases U n q ms s

/-- When the body leaves `done` set, `factor` holds the freshly computed value. -/
theorem trialBody_factor (U : Util) (n : Int) (q : Nat) (ms : Meas) (s : Vars)
    (h : (trialBody U n q ms s).1.done ≠ 0) :
    (trialBody U n q ms s).1.factor = computeFactor U n s.x (expandDen q ms.den) := by
  obtain ⟨h0, h1, h2, -⟩ := (trialBody_done_iff U n q ms s).mp h
  exact factorComputed_of_measured U n q ms s ((doneMeasured_eq_one ms).mpr ⟨h0, h1⟩) h2

/-- The success line is printed exactly when the body leaves `done` set, and
it reports the value of `factor`. -/
theorem trialBody_factors_mem (U : Util) (n : Int) (q : Nat) (ms : Meas) (s : Vars)
    (k f c : Int) :
    Msg.factors k f c ∈ (trialBody U n q ms s).2 ↔
      (trialBody U n q ms s).1.done ≠ 0 ∧ k = n ∧
      f = (trialBody U n q ms s).1.factor ∧ c = n.tdiv f := by
  show Msg.factors k f c ∈ trialOut U n q ms s ↔
    doneReport U n q ms s ≠ 0 ∧ k = n ∧ f = factorComputed U n q ms s ∧ c = n.tdiv f
  have hc := doneReport_cases U n q ms s
  have h1 : doneReport U n q ms s ≠ 0 ↔ doneReport U n q ms s = 1 := by
    rcases hc with h | h <;> simp [h]
  rw [h1, doneReport_eq_one]
  unfold trialOut
  simp only [List.mem_append, List.mem_singleton, List.mem_cons]
  constructor
  · intro h
    rcases h with h | h
    · exfalso
      split_ifs at h <;> simp at h
    · split_ifs at h with h2 h3
      · simp only [List.mem_singleton, Msg.factors.injEq] at h
        obtain ⟨rfl, rfl, rfl⟩ := h
        exact ⟨⟨h2.2, h2.1⟩, rfl, rfl, rfl⟩
      · simp at h
      · simp at h
  · rintro ⟨⟨h2, h3⟩, rfl, rfl, rfl⟩
    right
    rw [if_pos ⟨h3, h2⟩]
    simp

/-! ## C1, C5, C10: the factor computed by a trial -/

/-- A value that `GCD(n, b)` may return under the contract "true greatest
common divisor or `-1`" is `-1` or a positive divisor of `n`. -/
theorem gcd_value (U : Util) (n : Int) (hn : 0 < n)
    (hG : ∀ b : Int, U.GCD n b = -1 ∨ U.GCD n b = (Int.gcd n b : Int)) (b : Int) :
    U.GCD n b = -1 ∨ (0 < U.GCD n b ∧ U.GCD n b ∣ n) := by
  rcases hG b with h | h
  · exact Or.inl h
  · right
    rw [h]
    refine ⟨?_, Int.gcd_dvd_left⟩
    have : 0 < Int.gcd n b := Int.gcd_pos_of_ne_zero_left b hn.ne'
    exact_mod_cast this

/-- The helpers modelled from the spec return `-1` or the true greatest common
divisor. -/
theorem util_GCD_cases (a b : Int) :
    util.GCD a b = -1 ∨ util.GCD a b = (Int.gcd a b : Int) := by
  rw [util_GCDSpec a b]
  split_ifs <;> simp

/-- The value `max(GCD(n,a), GCD(n,b))` is `-1` or a positive divisor of `n`. -/
theorem computeFactor_value (U : Util) (n x den : Int) (hn : 0 < n)
    (hG : ∀ b : Int, U.GCD n b = -1 ∨ U.GCD n b = (Int.gcd n b : Int)) :
    computeFactor U n x den = -1 ∨
      (0 < computeFactor U n x den ∧ computeFactor U n x den ∣ n) := by
  unfold computeFactor
  simp only
  rcases max_choice (U.GCD n ((U.modexp x (den.tdiv 2) n + 1).tmod n))
    (U.GCD n ((U.modexp x (den.tdiv 2) n + n - 1).tmod n)) with h | h <;> rw [h] <;>
    exact gcd_value U n hn hG _

/-- C1. For n > 1 and a `GCD` that returns the true greatest common divisor or
the undefined signal -1, a trial that ends in success (it leaves `done` set, so
the loop exits) prints exactly the line `n = factor * n/factor` for its value
of `factor`, and that value satisfies 1 < factor < n and
factor * (n / factor) = n with integer division.  (Oddness of n is not
needed.) -/
theorem C1_success_reports_proper_factor (U : Util) (n : Int) (q : Nat) (ms : Meas) (s : Vars)
    (hn : 1 < n)
    (hG : ∀ b : Int, U.GCD n b = -1 ∨ U.GCD n b = (Int.gcd n b : Int))
    (hs : (trialBody U n q ms s).1.done ≠ 0) :
    Msg.factors n (trialBody U n q ms s).1.factor (n.tdiv (trialBody U n q ms s).1.factor)
        ∈ (trialBody U n q ms s).2 ∧
      (∀ k f c : Int, Msg.factors k f c ∈ (trialBody U n q ms s).2 →
        k = n ∧ f = (trialBody U n q ms s).1.factor ∧ c = n.tdiv f) ∧
      1 < (trialBody U n q ms s).1.factor ∧
      (trialBody U n q ms s).1.factor < n ∧
      (trialBody U n q ms s).1.factor * n.tdiv (trialBody U n q ms s).1.factor = n := by
  have hf := trialBody_factor U n q ms s hs
  obtain ⟨-, -, -, h1, h2, h3, h4⟩ := (trialBody_done_iff U n q ms s).mp hs
  rw [← hf] at h1 h2 h3 h4
  have hv := computeFactor_value U n s.x (expandDen q ms.den) (by omega) hG
  rw [← hf] at hv
  rcases hv with hv | ⟨hpos, hdvd⟩
  · exact absurd hv h1
  · have hle : (trialBody U n q ms s).1.factor ≤ n := Int.le_of_dvd (by omega) hdvd
    refine ⟨?_, ?_, by omega, by omega, Int.mul_tdiv_cancel' hdvd⟩
    · exact (trialBody_factors_mem U n q ms s _ _ _).mpr ⟨hs, rfl, rfl, rfl⟩
    · intro k f c hmem
      obtain ⟨-, hk, hf', hc⟩ := (trialBody_factors_mem U n q ms s k f c).mp hmem
      exact ⟨hk, hf', hc⟩

theorem C1_witness :
    (1 : Int) < 15 ∧
      (trialBody util 15 256 ⟨1, 64, 4⟩ (initVars ⟨0, fun _ => 0⟩ 7)).1.done ≠ 0 ∧
      (trialBody util 15 256 ⟨1, 64, 4⟩ (initVars ⟨0, fun _ => 0⟩ 7)).1.factor = 5 ∧
      1 < (trialBody util 15 256 ⟨1, 64, 4⟩ (initVars ⟨0, fun _ => 0⟩ 7)).1.factor ∧
      (trialBody util 15 256 ⟨1, 64, 4⟩ (initVars ⟨0, fun _ => 0⟩ 7)).1.factor < 15 :=
  ⟨by decide, by decide, by decide,
    (C1_success_reports_proper_factor util 15 256 ⟨1, 64, 4⟩ (initVars ⟨0, fun _ => 0⟩ 7)
      (by decide) (util_GCD_cases 15) (by decide)).2.2.1,
    (C1_success_reports_proper_factor util 15 256 ⟨1, 64, 4⟩ (initVars ⟨0, fun _ => 0⟩ 7)
      (by decide) (util_GCD_cases 15) (by decide)).2.2.2.1⟩

/-- For odd `n` the numbers `n` and `2` are coprime. -/
theorem gcd_two_of_odd (n : Int) (hodd : n % 2 = 1) : Int.gcd n 2 = 1 := by
  rw [← Int.isCoprime_iff_gcd_eq_one]
  exact ⟨1, -(n / 2), by omega⟩

/-- For odd `n` the numbers `n` and `n - 2` are coprime. -/
theorem gcd_sub_two_of_odd (n : Int) (hodd : n % 2 = 1) : Int.gcd n (n - 2) = 1 := by
  rw [← Int.isCoprime_iff_gcd_eq_one]
  refine ⟨1 - n / 2, n / 2, ?_⟩
  have h : n = 2 * (n / 2) + 1 := by omega
  generalize n / 2 = k at h
  subst h
  ring

/-- C5. In COMPUTE_FACTOR, for odd n > 2, any base and any period candidate
(the denominator after the expansion of lines 243-247; an odd one is retried
before COMPUTE_FACTOR, so evenness is not needed): if GCD(n, a) or GCD(n, b)
returns the undefined signal -1, the trial ends in RETRY and prints no factor.
The undefined signal itself is masked by `max`: the other call returns 1,
`max(GCD(n,a), GCD(n,b))` is 1, and the trial is retried as a trivial factor. -/
theorem C5_undefined_gcd_retries (U : Util) (hG : U.GCDSpec) (hR : U.modexpRange)
    (n : Int) (q : Nat) (ms : Meas) (s : Vars) (hn : 2 < n) (hodd : n % 2 = 1)
    (hund : U.GCD n ((U.modexp s.x ((expandDen q ms.den).tdiv 2) n + 1).tmod n) = -1 ∨
      U.GCD n ((U.modexp s.x ((expandDen q ms.den).tdiv 2) n + n - 1).tmod n) = -1) :
    (trialBody U n q ms s).1.done = 0 ∧
      (∀ k f c : Int, Msg.factors k f c ∉ (trialBody U n q ms s).2) ∧
      computeFactor U n s.x (expandDen q ms.den) = 1 := by
  obtain ⟨he0, hen⟩ := hR s.x ((expandDen q ms.den).tdiv 2) n (by omega)
  have hundef : ∀ b : Int, U.GCD n b = -1 → b = 0 := by
    intro b hb
    by_contra hne
    rw [hG n b, if_neg hne] at hb
    omega
  have hfac : computeFactor U n s.x (expandDen q ms.den) = 1 := by
    unfold computeFactor
    simp only
    generalize U.modexp s.x ((expandDen q ms.den).tdiv 2) n = e at he0 hen hund
    have ha : (e + 1).tmod n = (e + 1) % n := Int.tmod_eq_emod (by omega) (by omega)
    have hb : (e + n - 1).tmod n = (e + n - 1) % n := Int.tmod_eq_emod (by omega) (by omega)
    rw [ha, hb] at hund ⊢
    rcases hund with h | h
    · have h0 := hundef _ h
      have hd : n ∣ e + 1 := Int.dvd_of_emod_eq_zero h0
      have hle : n ≤ e + 1 := Int.le_of_dvd (by omega) hd
      have he : e = n - 1 := by omega
      subst he
      have h1 : (n - 1 + 1) % n = 0 := by simp
      have h2 : (n - 1 + n - 1) % n = n - 2 := by
        have : n - 1 + n - 1 = (n - 2) + n := by ring
        rw [this, Int.add_emod_self]
        exact Int.emod_eq_of_lt (by omega) (by omega)
      rw [h1, h2, hG n 0, hG n (n - 2), if_pos rfl, if_neg (by omega),
        gcd_sub_two_of_odd n hodd]
      rfl
    · have h0 := hundef _ h
      have hd : n ∣ e - 1 := by
        have h1 : n ∣ e + n - 1 := Int.dvd_of_emod_eq_zero h0
        have h2 : e - 1 = (e + n - 1) - n := by ring
        rw [h2]
        exact Int.dvd_sub h1 (dvd_refl n)
      have hz : e - 1 = 0 :=
        Int.eq_zero_of_abs_lt_dvd hd (abs_lt.mpr ⟨by omega, by omega⟩)
      have he : e = 1 := by omega
      subst he
      have h1 : ((1 : Int) + 1) % n = 2 := Int.emod_eq_of_lt (by omega) (by omega)
      have h2 : ((1 : Int) + n - 1) % n = 0 := by
        have : (1 : Int) + n - 1 = n := by ring
        rw [this]; simp
      rw [h1, h2, hG n 0, hG n 2, if_pos rfl, if_neg (by omega), gcd_two_of_odd n hodd]
      rfl
  have hdone : (trialBody U n q ms s).1.done = 0 := by
    rcases trialBody_done_cases U n q ms s with h | h
    · exact h
    · exfalso
      have h1 : (trialBody U n q ms s).1.done ≠ 0 := by rw [h]; decide
      obtain ⟨-, -, -, -, -, h6, -⟩ := (trialBody_done_iff U n q ms s).mp h1
      exact h6 hfac
  refine ⟨hdone, ?_, hfac⟩
  intro k f c hmem
  exact ((trialBody_factors_mem U n q ms s k f c).mp hmem).1 hdone

theorem C5_witness :
    (2 : Int) < 15 ∧ (15 : Int) % 2 = 1 ∧
      util.GCD 15 ((util.modexp 14 ((expandDen 256 2).tdiv 2) 15 + 1).tmod 15) = -1 ∧
      (trialBody util 15 256 ⟨1, 128, 2⟩ (initVars ⟨0, fun _ => 0⟩ 14)).1.done = 0 :=
  ⟨by decide, by decide, by decide,
    (C5_undefined_gcd_retries util util_GCDSpec util_modexpRange 15 256 ⟨1, 128, 2⟩
      (initVars ⟨0, fun _ => 0⟩ 14) (by decide) (by decide) (Or.inl (by decide))).1⟩

/-- C10. For n > 2 and an even period candidate r > 0 (the denominator after
the expansion of lines 243-247, whether it was doubled or not) with
x^r ≡ 1 (mod n): if e = x^(r/2) mod n is neither 1 nor n-1, then
factor = max(gcd(n, (e+1) mod n), gcd(n, (e+n-1) mod n)) divides n with
1 < factor < n, none of the retry conditions fires, and a trial that measured
m other than 0 and -1 succeeds and prints `n = factor * n/factor`.  (Oddness
of n and coprimality of x are not needed.) -/
theorem C10_nontrivial_root_gives_factor (U : Util) (hG : U.GCDSpec) (hM : U.modexpSpec)
    (n : Int) (q : Nat) (ms : Meas) (s : Vars) (r : Nat)
    (hn : 2 < n) (hr : 0 < r) (heven : r % 2 = 0)
    (hper : s.x ^ r % n = 1)
    (he1 : s.x ^ (r / 2) % n ≠ 1) (he2 : s.x ^ (r / 2) % n ≠ n - 1)
    (hm0 : ms.m ≠ 0) (hm1 : ms.m ≠ -1) (hexp : expandDen q ms.den = (r : Int)) :
    (trialBody U n q ms s).1.factor =
        max (Int.gcd n ((s.x ^ (r / 2) % n + 1) % n) : Int)
          (Int.gcd n ((s.x ^ (r / 2) % n + n - 1) % n) : Int) ∧
      (trialBody U n q ms s).1.factor ∣ n ∧
      1 < (trialBody U n q ms s).1.factor ∧
      (trialBody U n q ms s).1.factor < n ∧
      (trialBody U n q ms s).1.done = 1 ∧
      Msg.factors n (trialBody U n q ms s).1.factor (n.tdiv (trialBody U n q ms s).1.factor)
        ∈ (trialBody U n q ms s).2 := by
  have hodd : (expandDen q ms.den).tmod 2 ≠ 1 := by
    rw [hexp, Int.tmod_eq_emod (by positivity) (by norm_num)]
    omega
  have hhalf : ((r : Int)).tdiv 2 = ((r / 2 : Nat) : Int) := by
    rw [Int.tdiv_eq_ediv (by positivity) (by norm_num)]
    norm_cast
  -- the value of e
  have hmod : U.modexp s.x ((r : Int).tdiv 2) n = s.x ^ (r / 2) % n := by
    rw [hhalf, hM s.x _ n (by positivity) (by omega), Int.toNat_ofNat]
  generalize hedef : s.x ^ (r / 2) % n = e at he1 he2 hmod ⊢
  have he0 : 0 ≤ e := by rw [← hedef]; exact Int.emod_nonneg _ (by omega)
  have hen : e < n := by rw [← hedef]; exact Int.emod_lt_of_pos _ (by omega)
  -- e * e ≡ 1 (mod n)
  have hsq : (e * e) % n = 1 := by
    have h1 : (e * e) % n = (s.x ^ (r / 2) * s.x ^ (r / 2)) % n := by
      rw [← hedef]
      exact Int.ModEq.mul (Int.mod_modEq _ _) (Int.mod_modEq _ _)
    have h2 : s.x ^ (r / 2) * s.x ^ (r / 2) = s.x ^ r := by
      rw [← pow_add]
      congr 1
      omega
    rw [h1, h2, hper]
  have hdvd : n ∣ (e + 1) * (e - 1) := by
    have h1 : (e + 1) * (e - 1) = e * e - 1 := by ring
    rw [h1]
    have h3 : (e * e - 1) % n = 0 := by
      rw [Int.sub_emod, hsq]
      have : (1 : Int) % n = 1 := Int.emod_eq_of_lt (by omega) (by omega)
      rw [this]
      simp
    exact Int.dvd_of_emod_eq_zero h3
  have hene0 : e ≠ 0 := by
    intro h
    rw [h] at hsq
    simp at hsq
  have ha : (e + 1).tmod n = e + 1 := by
    rw [Int.tmod_eq_emod (by omega) (by omega)]
    exact Int.emod_eq_of_lt (by omega) (by omega)
  have hb : (e + n - 1).tmod n = e - 1 := by
    rw [Int.tmod_eq_emod (by omega) (by omega)]
    have : e + n - 1 = (e - 1) + n := by ring
    rw [this, Int.add_emod_self]
    exact Int.emod_eq_of_lt (by omega) (by omega)
  have ha2 : (e + 1) % n = e + 1 := Int.emod_eq_of_lt (by omega) (by omega)
  have hb2 : (e + n - 1) % n = e - 1 := by
    have : e + n - 1 = (e - 1) + n := by ring
    rw [this, Int.add_emod_self]
    exact Int.emod_eq_of_lt (by omega) (by omega)
  -- the computed factor
  have hcf : computeFactor U n s.x (expandDen q ms.den) =
      max (Int.gcd n (e + 1) : Int) (Int.gcd n (e - 1) : Int) := by
    unfold computeFactor
    simp only
    rw [hexp, hmod, ha, hb, hG n (e + 1), hG n (e - 1), if_neg (by omega), if_neg (by omega)]
  -- bounds on the two greatest common divisors
  have hg1pos : 0 < Int.gcd n (e + 1) := Int.gcd_pos_of_ne_zero_left _ (by omega)
  have hg2pos : 0 < Int.gcd n (e - 1) := Int.gcd_pos_of_ne_zero_left _ (by omega)
  have hg1le : (Int.gcd n (e + 1) : Int) ≤ e + 1 :=
    Int.le_of_dvd (by omega) Int.gcd_dvd_right
  have hg2le : (Int.gcd n (e - 1) : Int) ≤ e - 1 :=
    Int.le_of_dvd (by omega) Int.gcd_dvd_right
  have hnot : ¬ (Int.gcd n (e + 1) = 1 ∧ Int.gcd n (e - 1) = 1) := by
    rintro ⟨h1, h2⟩
    have c1 : IsCoprime n (e + 1) := Int.isCoprime_iff_gcd_eq_one.mpr h1
    have c2 : IsCoprime n (e - 1) := Int.isCoprime_iff_gcd_eq_one.mpr h2
    have hu : IsUnit n := (c1.mul_right c2).isUnit_of_dvd' (dvd_refl n) hdvd
    rcases Int.isUnit_iff.mp hu with h | h <;> omega
  have hfdvd : max (Int.gcd n (e + 1) : Int) (Int.gcd n (e - 1) : Int) ∣ n := by
    rcases max_choice (Int.gcd n (e + 1) : Int) (Int.gcd n (e - 1) : Int) with h | h <;>
      rw [h] <;> exact Int.gcd_dvd_left
  have hflt : max (Int.gcd n (e + 1) : Int) (Int.gcd n (e - 1) : Int) < n :=
    max_lt (by omega) (by omega)
  have hfgt : 1 < max (Int.gcd n (e + 1) : Int) (Int.gcd n (e - 1) : Int) := by
    by_contra hle
    rw [not_lt, max_le_iff] at hle
    apply hnot
    constructor <;> omega
  have hdone : (trialBody U n q ms s).1.done ≠ 0 := by
    rw [trialBody_done_iff, hcf]
    exact ⟨hm0, hm1, hodd, by omega, by omega, by omega, by omega⟩
  have hfac := trialBody_factor U n q ms s hdone
  rw [hcf] at hfac
  rw [ha2, hb2, hfac]
  refine ⟨rfl, hfdvd, hfgt, hflt, ?_, ?_⟩
  · rcases trialBody_done_cases U n q ms s with h | h
    · exact absurd h hdone
    · exact h
  · rw [← hfac]
    exact (trialBody_factors_mem U n q ms s _ _ _).mpr ⟨hdone, rfl, rfl, rfl⟩

theorem C10_witness :
    (2 : Int) < 21 ∧ expandDen 512 3 = 6 ∧
      (initVars ⟨0, fun _ => 0⟩ 2).x ^ 6 % (21 : Int) = 1 ∧
      (trialBody util 21 512 ⟨1, 171, 3⟩ (initVars ⟨0, fun _ => 0⟩ 2)).1.factor = 7 ∧
      (trialBody util 21 512 ⟨1, 171, 3⟩ (initVars ⟨0, fun _ => 0⟩ 2)).1.done = 1 :=
  ⟨by decide, by decide, by decide, by decide,
    (C10_nontrivial_root_gives_factor util util_GCDSpec util_modexpSpec 21 512 ⟨1, 171, 3⟩
      (initVars ⟨0, fun _ => 0⟩ 2) 6 (by decide) (by decide) (by decide) (by decide)
      (by decide) (by decide) (by decide) (by decide) (by decide)).2.2.2.2.1⟩

/-! ## The retry loop -/

theorem mainLoop_returned (U : Util) (n : Int) (q : Nat) (meas : Nat → Meas) (picks fuel : Nat)
    (s : Vars) (h : s.done ≠ 0) :
    mainLoop U n q meas picks (fuel + 1) s = ⟨picks, [], [], Exit.returned⟩ := by
  simp [mainLoop, h]

theorem mainLoop_gaveUp (U : Util) (n : Int) (q : Nat) (meas : Nat → Meas) (picks fuel : Nat)
    (s : Vars) (h : s.done = 0) (h5 : 5 ≤ s.tries) :
    mainLoop U n q meas picks (fuel + 1) s = ⟨picks, [], [Msg.giveUp], Exit.gaveUp⟩ := by
  simp [mainLoop, h, h5]

theorem mainLoop_step (U : Util) (n : Int) (q : Nat) (meas : Nat → Meas) (picks fuel : Nat)
    (s : Vars) (h : s.done = 0) (h5 : s.tries < 5) :
    mainLoop U n q meas picks (fuel + 1) s =
      ⟨(mainLoop U n q meas picks fuel (trialBody U n q (meas s.tries.toNat) s).1).picks,
        ⟨s.x, (trialBody U n q (meas s.tries.toNat) s).1,
            (trialBody U n q (meas s.tries.toNat) s).2⟩ ::
          (mainLoop U n q meas picks fuel (trialBody U n q (meas s.tries.toNat) s).1).trials,
        (trialBody U n q (meas s.tries.toNat) s).2 ++
          (mainLoop U n q meas picks fuel (trialBody U n q (meas s.tries.toNat) s).1).out,
        (mainLoop U n q meas picks fuel (trialBody U n q (meas s.tries.toNat) s).1).exit⟩ := by
  have h5' : ¬ 5 ≤ s.tries := by omega
  simp [mainLoop, h, h5']

theorem giveUp_not_mem_trialOut (U : Util) (n : Int) (q : Nat) (ms : Meas) (s : Vars) :
    Msg.giveUp ∉ (trialBody U n q ms s).2 := by
  show Msg.giveUp ∉ trialOut U n q ms s
  unfold trialOut
  simp only [List.mem_append, List.mem_singleton, List.mem_cons]
  intro h
  split_ifs at h <;> simp at h

/-- The invariant of the retry loop, for a state with `done` clear and
`tries` in `0 .. 5`, and fuel for the remaining evaluations of the condition. -/
theorem mainLoop_bounded (U : Util) (n : Int) (q : Nat) (meas : Nat → Meas) (picks : Nat)
    (fuel : Nat) : ∀ s : Vars, s.done = 0 → 0 ≤ s.tries → s.tries ≤ 5 →
      6 ≤ (fuel : Int) + s.tries →
      (mainLoop U n q meas picks fuel s).exit ≠ Exit.unfinished ∧
      ((mainLoop U n q meas picks fuel s).trials.length : Int) + s.tries ≤ 5 ∧
      ((mainLoop U n q meas picks fuel s).exit = Exit.gaveUp ↔
        ((mainLoop U n q meas picks fuel s).trials.length : Int) + s.tries = 5 ∧
          ∀ T ∈ (mainLoop U n q meas picks fuel s).trials, T.retry) ∧
      (Msg.giveUp ∈ (mainLoop U n q meas picks fuel s).out ↔
        (mainLoop U n q meas picks fuel s).exit = Exit.gaveUp) ∧
      (∀ (i : Nat) (T T2 : Trial), (mainLoop U n q meas picks fuel s).trials[i]? = some T →
        (mainLoop U n q meas picks fuel s).trials[i + 1]? = some T2 → T.retry) := by
  induction fuel with
  | zero => intro s _ _ h5 h6; omega
  | succ k ih =>
    intro s hd h0 h5 h6
    by_cases hlt : s.tries < 5
    · rw [mainLoop_step U n q meas picks k s hd hlt]
      set b := trialBody U n q (meas s.tries.toNat) s with hb
      have hbt : b.1.tries = s.tries + 1 := rfl
      rcases trialBody_done_cases U n q (meas s.tries.toNat) s with hz | ho
      · -- the trial ended in RETRY
        obtain ⟨i1, i2, i3, i4, i5⟩ := ih b.1 hz (by omega) (by omega) (by omega)
        rw [hbt] at i2 i3
        refine ⟨i1, ?_, ?_, ?_, ?_⟩
        · simp only [List.length_cons]; push_cast; omega
        · simp only [List.length_cons, List.mem_cons, forall_eq_or_imp]
          rw [i3]
          push_cast
          constructor
          · rintro ⟨h1, h2⟩
            exact ⟨by omega, hz, h2⟩
          · rintro ⟨h1, -, h2⟩
            exact ⟨by omega, h2⟩
        · simp only [List.mem_append]
          rw [← i4]
          constructor
          · rintro (h | h)
            · exact absurd h (giveUp_not_mem_trialOut U n q _ s)
            · exact h
          · intro h; exact Or.inr h
        · intro i T T2 hT hT2
          cases i with
          | zero =>
            simp only [List.getElem?_cons_zero, Option.some.injEq] at hT
            rw [← hT]
            exact hz
          | succ j =>
            simp only [List.getElem?_cons_succ] at hT hT2
            exact i5 j T T2 hT hT2
      · -- the trial ended in success: the next evaluation of the condition ends the loop
        have hk : ∃ k2, k = k2 + 1 := ⟨k - 1, by omega⟩
        obtain ⟨k2, rfl⟩ := hk
        have hne : b.1.done ≠ 0 := by rw [ho]; decide
        rw [mainLoop_returned U n q meas picks k2 b.1 hne]
        refine ⟨by simp, ?_, ?_, ?_, ?_⟩
        · simp only [List.length_cons, List.length_nil]; push_cast; omega
        · simp only [List.length_cons, List.length_nil, List.mem_singleton, forall_eq]
          constructor
          · intro h; cases h
          · rintro ⟨-, h⟩
            exact absurd h hne
        · simp only [List.append_nil]
          constructor
          · intro h; exact absurd h (giveUp_not_mem_trialOut U n q _ s)
          · intro h; cases h
        · intro i T T2 hT hT2
          cases i <;> simp at hT2
    · have h55 : 5 ≤ s.tries := by omega
      rw [mainLoop_gaveUp U n q meas picks k s hd h55]
      refine ⟨by simp, ?_, ?_, ?_, ?_⟩
      · simp only [List.length_nil]; push_cast; omega
      · simp only [List.length_nil, List.not_mem_nil, true_iff]
        push_cast
        exact ⟨by omega, fun _ h => h.elim⟩
      · simp
      · intro i T T2 hT
        simp at hT

/-! ## C3: at most five trials -/

theorem validate_ne_giveUp (U : Util) (n : Int) (e : Msg) (h : validate U n = some e) :
    e ≠ Msg.giveUp := by
  unfold validate at h
  split_ifs at h <;> simp at h <;> rw [← h] <;> simp

/-- C3. In every run (any input, any draws, any results of the measurements),
with at least six evaluations of the loop condition allowed, the loop ends by
itself; the body is executed at most 5 times; the run reports the give-up
failure if and only if five trials were executed and each ended in RETRY; and
every trial that is followed by another trial ended in RETRY, so no trial is
started after a success. -/
theorem C3_at_most_five_trials (U : Util) (RAND_MAX : Int) (g : Garbage) (n : Int)
    (rands : List Int) (meas : Nat → Meas) (fuel : Nat) (hf : 6 ≤ fuel) :
    (main U RAND_MAX g n rands meas fuel).exit ≠ Exit.unfinished ∧
      (main U RAND_MAX g n rands meas fuel).trials.length ≤ 5 ∧
      ((main U RAND_MAX g n rands meas fuel).exit = Exit.gaveUp ↔
        (main U RAND_MAX g n rands meas fuel).trials.length = 5 ∧
          ∀ T ∈ (main U RAND_MAX g n rands meas fuel).trials, T.retry) ∧
      (Msg.giveUp ∈ (main U RAND_MAX g n rands meas fuel).out ↔
        (main U RAND_MAX g n rands meas fuel).exit = Exit.gaveUp) ∧
      (∀ (i : Nat) (T T2 : Trial),
        (main U RAND_MAX g n rands meas fuel).trials[i]? = some T →
        (main U RAND_MAX g n rands meas fuel).trials[i + 1]? = some T2 → T.retry) := by
  unfold main
  split
  · rename_i e he
    have := validate_ne_giveUp U n e he
    refine ⟨by simp, by simp, by simp, ?_, by simp⟩
    simp only [List.mem_singleton]
    constructor
    · intro h; exact absurd h.symm this
    · intro h; cases h
  · split
    · refine ⟨by simp, by simp, by simp, by simp, by simp⟩
    · rename_i x k _
      obtain ⟨h1, h2, h3, h4, h5⟩ :=
        mainLoop_bounded U n (U.GetQ n) meas k fuel (initVars g x) rfl (le_refl 0)
          (by show (0 : Int) ≤ 5; decide)
          (by show (6 : Int) ≤ (fuel : Int) + 0; omega)
      have ht : (initVars g x).tries = 0 := rfl
      rw [ht] at h2 h3
      simp only [add_zero] at h2 h3
      refine ⟨h1, by exact_mod_cast h2, ?_, ?_, h5⟩
      · rw [h3]
        constructor
        · rintro ⟨a, b⟩; exact ⟨by exact_mod_cast a, b⟩
        · rintro ⟨a, b⟩; exact ⟨by exact_mod_cast a, b⟩
      · rw [← h4]
        simp

theorem C3_witness :
    6 ≤ 6 ∧
      (main util 32767 ⟨0, fun _ => 0⟩ 15 [15000] (fun _ => ⟨1, 0, 0⟩) 6).trials.length ≤ 5 ∧
      (main util 32767 ⟨0, fun _ => 0⟩ 15 [15000] (fun _ => ⟨1, 0, 0⟩) 6).exit = Exit.gaveUp :=
  ⟨le_refl 6,
    (C3_at_most_five_trials util 32767 ⟨0, fun _ => 0⟩ 15 [15000] (fun _ => ⟨1, 0, 0⟩) 6
      (le_refl 6)).2.1,
    by decide⟩

/-! ## C4: the base is fixed for the whole run -/

/-- The loop never assigns `x` and never samples: every trial reads the base
the loop was entered with. -/
theorem mainLoop_base (U : Util) (n : Int) (q : Nat) (meas : Nat → Meas) (picks : Nat)
    (fuel : Nat) : ∀ s : Vars,
      (mainLoop U n q meas picks fuel s).picks = picks ∧
      ∀ T ∈ (mainLoop U n q meas picks fuel s).trials, T.x = s.x := by
  induction fuel with
  | zero => intro s; simp [mainLoop]
  | succ k ih =>
    intro s
    simp only [mainLoop]
    split_ifs with h1 h2
    · simp
    · simp
    · obtain ⟨i1, i2⟩ := ih (trialBody U n q (meas s.tries.toNat) s).1
      refine ⟨i1, ?_⟩
      intro T hT
      simp only [List.mem_cons] at hT
      rcases hT with rfl | hT
      · rfl
      · exact i2 T hT

/-- C4, as the code has it. In every run, every trial (the first and each
retry) reads the base that base selection fixed before the first trial, and
the calls of `rand()` that assign `x` are those made before the first trial:
a retry restarts from BUILD_ENTANGLEMENT with the same base. -/
theorem C4_base_fixed_for_run (U : Util) (RAND_MAX : Int) (g : Garbage) (n : Int)
    (rands : List Int) (meas : Nat → Meas) (fuel : Nat) :
    ∀ T ∈ (main U RAND_MAX g n rands meas fuel).trials,
      pickBase U RAND_MAX n rands =
        some (T.x, (main U RAND_MAX g n rands meas fuel).picks) := by
  unfold main
  split
  · simp
  · split
    · simp
    · rename_i x k hp
      obtain ⟨h1, h2⟩ := mainLoop_base U n (U.GetQ n) meas k fuel (initVars g x)
      intro T hT
      simp only at hT ⊢
      rw [hp, h1, h2 T hT]
      rfl

theorem C4_witness :
    pickBase util 32767 15 [15000, 3000] =
      some (((main util 32767 ⟨0, fun _ => 0⟩ 15 [15000, 3000]
          (fun k => if k = 0 then ⟨1, 0, 0⟩ else ⟨1, 64, 4⟩) 6).trials.get
            ⟨1, by decide⟩).x,
        (main util 32767 ⟨0, fun _ => 0⟩ 15 [15000, 3000]
          (fun k => if k = 0 then ⟨1, 0, 0⟩ else ⟨1, 64, 4⟩) 6).picks) :=
  C4_base_fixed_for_run util 32767 ⟨0, fun _ => 0⟩ 15 [15000, 3000]
    (fun k => if k = 0 then ⟨1, 0, 0⟩ else ⟨1, 64, 4⟩) 6 _ (List.get_mem _ _ _)

/-- C4 fails as stated. For n = 15 the draws 15000, 3000 give the bases 7 and 2.
In the run whose first trial measures 0, the first trial is retried, and the
second trial reads the base 7 again; the run sampled `x` once, and the second
draw, which a fresh sample would have turned into the base 2, is never used. -/
theorem C4_counterexample :
    (main util 32767 ⟨0, fun _ => 0⟩ 15 [15000, 3000]
        (fun k => if k = 0 then ⟨1, 0, 0⟩ else ⟨1, 64, 4⟩) 6).trials.map
        (fun T => (T.x, decide T.retry)) = [(7, true), (7, false)] ∧
      (main util 32767 ⟨0, fun _ => 0⟩ 15 [15000, 3000]
        (fun k => if k = 0 then ⟨1, 0, 0⟩ else ⟨1, 64, 4⟩) 6).picks = 1 ∧
      pickBase util 32767 15 [3000] = some (2, 1) := by
  decide

/-! ## C8: the bookkeeping array and the pending vector of register two -/

/-- Lines 160-166 leave `modex[i] = modexp(x, i, n)` for every `i < q`. -/
theorem entangle_modex (U : Util) (x n : Int) (q : Nat) (mo : Nat → Int)
    (md : Int → Complex) (i : Nat) :
    (entangle U x n q (mo, md)).1 i = if i < q then U.modexp x (i : Int) n else mo i := by
  induction q with
  | zero => simp [entangle]
  | succ k ih =>
    simp only [entangle, Function.update_apply]
    by_cases h : i = k
    · subst h; simp
    · rw [if_neg h, ih]
      by_cases h2 : i < k
      · rw [if_pos h2, if_pos (by omega)]
      · rw [if_neg h2, if_neg (by omega)]

/-- Lines 160-166 add to `mdx[v]`, for every residue `v`, the number of indices
`a < q` with `modexp(x, a, n) = v`. -/
theorem entangle_mdx (U : Util) (x n : Int) (q : Nat) (mo : Nat → Int)
    (md : Int → Complex) (v : Int) :
    (entangle U x n q (mo, md)).2 v =
      ⟨(md v).re + (((Finset.range q).filter (fun a : Nat => U.modexp x (a : Int) n = v)).card : ℚ),
        (md v).im⟩ := by
  induction q with
  | zero => simp [entangle]
  | succ k ih =>
    simp only [entangle, Function.update_apply]
    rw [Finset.range_succ, Finset.filter_insert]
    by_cases h : U.modexp x (k : Int) n = v
    · rw [if_pos h.symm, if_pos h, h, ih,
        Finset.card_insert_of_not_mem (by simp)]
      simp only [Complex.add, Complex.mk.injEq]
      push_cast
      constructor <;> ring
    · rw [if_neg (fun h2 => h h2.symm), if_neg h, ih]

/-- In a run of the loop entered with `mdx[v] = c * count(v)`, the trial with
index `j` leaves `mdx[v] = (c + j + 1) * count(v)` and
`modex[a] = modexp(x, a, n)` for `a < q`. -/
theorem mainLoop_mdx (U : Util) (n : Int) (q : Nat) (meas : Nat → Meas) (picks : Nat)
    (fuel : Nat) : ∀ (s : Vars) (c : Nat),
      (∀ v : Int, s.mdx v =
        ⟨(c : ℚ) * (((Finset.range q).filter
          (fun a : Nat => U.modexp s.x (a : Int) n = v)).card : ℚ), 0⟩) →
      ∀ (j : Nat) (T : Trial), (mainLoop U n q meas picks fuel s).trials[j]? = some T →
        (∀ v : Int, T.vars.mdx v =
          ⟨((c + j + 1 : Nat) : ℚ) * (((Finset.range q).filter
            (fun a : Nat => U.modexp s.x (a : Int) n = v)).card : ℚ), 0⟩) ∧
        (∀ a : Nat, a < q → T.vars.modex a = U.modexp s.x (a : Int) n) := by
  induction fuel with
  | zero => intro s c _ j T hT; simp [mainLoop] at hT
  | succ k ih =>
    intro s c hs j T hT
    simp only [mainLoop] at hT
    split_ifs at hT with h1 h2
    · simp at hT
    · simp at hT
    · have hnext : ∀ v : Int, (trialBody U n q (meas s.tries.toNat) s).1.mdx v =
          ⟨((c + 1 : Nat) : ℚ) * (((Finset.range q).filter
            (fun a : Nat => U.modexp s.x (a : Int) n = v)).card : ℚ), 0⟩ := by
        intro v
        show (entangle U s.x n q (s.modex, s.mdx)).2 v = _
        rw [entangle_mdx, hs v]
        simp only [Complex.mk.injEq, and_true]
        push_cast
        ring
      cases j with
      | zero =>
        simp only [List.getElem?_cons_zero, Option.some.injEq] at hT
        subst hT
        refine ⟨?_, ?_⟩
        · intro v
          rw [hnext v]
        · intro a ha
          show (entangle U s.x n q (s.modex, s.mdx)).1 a = _
          rw [entangle_modex, if_pos ha]
      | succ i =>
        simp only [List.getElem?_cons_succ] at hT
        have := ih (trialBody U n q (meas s.tries.toNat) s).1 (c + 1) hnext i T hT
        have hx : (trialBody U n q (meas s.tries.toNat) s).1.x = s.x := rfl
        rw [hx] at this
        obtain ⟨t1, t2⟩ := this
        refine ⟨?_, t2⟩
        intro v
        rw [t1 v]
        have : c + 1 + i + 1 = c + (i + 1) + 1 := by omega
        rw [this]

/-! ## C7: failed and uninformative measurements -/

/-- With `value = -1` no entry of `modex` matches, so lines 182-188 clear
every amplitude of `collapse`. -/
theorem collapseLoop_zero (modex : Nat → Int) (q : Nat) (c : Nat → Complex)
    (h : ∀ i, i < q → modex i ≠ -1) :
    ∀ i, i < q → collapseLoop modex (-1) q c i = ⟨0, 0⟩ := by
  induction q with
  | zero => intro i hi; omega
  | succ k ih =>
    intro i hi
    simp only [collapseLoop, Function.update_apply]
    by_cases hik : i = k
    · subst hik
      rw [if_pos rfl, if_neg (h i hi)]
    · rw [if_neg hik]
      exact ih (fun j hj => h j (by omega)) i (by omega)

theorem sumNormSq_zero (st : Nat → Complex) (k : Nat) (h : ∀ i, i < k → st i = ⟨0, 0⟩) :
    sumNormSq st k = 0 := by
  induction k with
  | zero => rfl
  | succ j ih =>
    simp only [sumNormSq]
    rw [ih (fun i hi => h i (by omega)), h j (by omega)]
    simp [Complex.normSq]

theorem dftSum_zero (F : FloatLib) (q : Nat) (old : Nat → Complex) (k m : Nat)
    (h : ∀ i, i < m → old i = ⟨0, 0⟩) : dftSum F q old k m = ⟨0, 0⟩ := by
  induction m with
  | zero => rfl
  | succ j ih =>
    simp only [dftSum]
    rw [ih (fun i hi => h i (by omega)), h j (by omega)]
    simp [Complex.add, Complex.mul]

/-- On amplitudes that are all zero the walk of `measure()` never finds an
index when `u > 0`. -/
theorem measureLoop_zero_pos (st : Nat → Complex) (u : ℚ) (hu : 0 < u) (k : Nat) :
    ∀ i : Nat, (∀ j, i ≤ j → j < i + k → st j = ⟨0, 0⟩) → measureLoop st u k i 0 = -1 := by
  induction k with
  | zero => intro i _; rfl
  | succ m ih =>
    intro i h
    simp only [measureLoop]
    have h0 : (st i).normSq = 0 := by
      rw [h i le_rfl (by omega)]; simp [Complex.normSq]
    rw [h0, add_zero, if_neg (not_le.mpr hu)]
    exact ih (i + 1) (fun j hj1 hj2 => h j (by omega) (by omega))

/-- Measuring register one after an all-zero `collapse` yields `0` or `-1`. -/
theorem measureReg1_zero (F : FloatLib) (q : Nat) (collapse : Nat → Complex) (u : ℚ)
    (hu : 0 ≤ u) (h : ∀ i, i < q → collapse i = ⟨0, 0⟩) :
    measureReg1 F q collapse u = 0 ∨ measureReg1 F q collapse u = -1 := by
  unfold measureReg1 QuReg.SetState QuReg.Norm
  simp only
  rw [if_pos (sumNormSq_zero collapse q h)]
  unfold DFT QuReg.DecMeasure
  simp only
  have hst : ∀ k, k < q → (fun k => if k < q then
      (⟨(dftSum F q collapse k q).re * F.rsqrt q, (dftSum F q collapse k q).im * F.rsqrt q⟩ :
        Complex)
      else collapse k) k = ⟨0, 0⟩ := by
    intro k hk
    simp only [if_pos hk, dftSum_zero F q collapse k q h]
    simp
  rcases hu.eq_or_lt with hu0 | hupos
  · cases q with
    | zero => right; rfl
    | succ m =>
      left
      simp only [measureLoop]
      rw [if_pos]
      · rfl
      · rw [← hu0]
        have := hst 0 (by omega)
        simp only at this
        rw [this]
        simp [Complex.normSq]
  · right
    exact measureLoop_zero_pos _ u hupos q 0 (fun j _ hj => hst j (by omega))

/-- A trial whose measurement of register one is 0 or -1 is retried. -/
theorem trialBody_retry_of_m (U : Util) (n : Int) (q : Nat) (ms : Meas) (s : Vars)
    (hm : ms.m = 0 ∨ ms.m = -1) :
    (trialBody U n q ms s).1.done = 0 ∧
      ∀ k f c : Int, Msg.factors k f c ∉ (trialBody U n q ms s).2 := by
  have hdone : (trialBody U n q ms s).1.done = 0 := by
    rcases trialBody_done_cases U n q ms s with h | h
    · exact h
    · exfalso
      have h1 : (trialBody U n q ms s).1.done ≠ 0 := by rw [h]; decide
      obtain ⟨h0, h1, -⟩ := (trialBody_done_iff U n q ms s).mp h1
      rcases hm with hm | hm
      · exact h0 hm
      · exact h1 hm
  refine ⟨hdone, ?_⟩
  intro k f c hmem
  exact ((trialBody_factors_mem U n q ms s k f c).mp hmem).1 hdone

/-- C7. A trial in which a measurement fails or is uninformative ends in RETRY
and reports no factor.  When m is 0 or -1 this is decided by the tests of
lines 210 and 217.  `main` has no test on `value`: when `value` is -1, no
entry of `modex` (all in `[0, n)`) equals it, `collapse` is all zero, and the
measurement of register one that follows (`SetState`, `Norm`, `DFT`,
`DecMeasure` as the spec describes them, for any draw `u ≥ 0`) returns 0 or -1,
so the trial is retried by the same two tests. -/
theorem C7_failed_measurement_retries (U : Util) (hR : U.modexpRange) (F : FloatLib)
    (n : Int) (q : Nat) (ms : Meas) (s : Vars) (hn : 0 < n) :
    ((ms.m = 0 ∨ ms.m = -1) →
      (trialBody U n q ms s).1.done = 0 ∧
        ∀ k f c : Int, Msg.factors k f c ∉ (trialBody U n q ms s).2) ∧
    (ms.value = -1 → ∀ u : ℚ, 0 ≤ u →
      ms.m = measureReg1 F q (trialBody U n q ms s).1.collapse u →
      (∀ i, i < q → (trialBody U n q ms s).1.collapse i = ⟨0, 0⟩) ∧
        (ms.m = 0 ∨ ms.m = -1) ∧
        (trialBody U n q ms s).1.done = 0 ∧
        ∀ k f c : Int, Msg.factors k f c ∉ (trialBody U n q ms s).2) := by
  refine ⟨trialBody_retry_of_m U n q ms s, ?_⟩
  intro hv u hu hm
  have hz : ∀ i, i < q → (trialBody U n q ms s).1.collapse i = ⟨0, 0⟩ := by
    intro i hi
    show collapseLoop (entangle U s.x n q (s.modex, s.mdx)).1 ms.value q s.collapse i = _
    rw [hv]
    apply collapseLoop_zero _ q _ _ i hi
    intro j hj
    rw [entangle_modex, if_pos hj]
    have := (hR s.x (j : Int) n hn).1
    omega
  have hm01 : ms.m = 0 ∨ ms.m = -1 := by
    rw [hm]
    exact measureReg1_zero F q _ u hu hz
  exact ⟨hz, hm01, trialBody_retry_of_m U n q ms s hm01⟩

theorem C7_witness :
    (0 : Int) < 15 ∧ (0 : ℚ) ≤ 1 / 2 ∧
      (trialBody util 15 4
        ⟨-1, measureReg1 ⟨fun _ => 1, fun _ _ _ => ⟨1, 0⟩⟩ 4
            (trialBody util 15 4 ⟨-1, 0, 4⟩ (initVars ⟨0, fun _ => 0⟩ 7)).1.collapse (1 / 2), 4⟩
        (initVars ⟨0, fun _ => 0⟩ 7)).1.done = 0 :=
  ⟨by decide, by norm_num,
    ((C7_failed_measurement_retries util util_modexpRange ⟨fun _ => 1, fun _ _ _ => ⟨1, 0⟩⟩ 15 4
      ⟨-1, measureReg1 ⟨fun _ => 1, fun _ _ _ => ⟨1, 0⟩⟩ 4
            (trialBody util 15 4 ⟨-1, 0, 4⟩ (initVars ⟨0, fun _ => 0⟩ 7)).1.collapse (1 / 2), 4⟩
      (initVars ⟨0, fun _ => 0⟩ 7) (by decide)).2 rfl (1 / 2) (by norm_num) rfl).2.2.1⟩

/-! ## C6: base selection -/

/-- The loop of `ilog2` finds the exponent of the leading bit. -/
theorem log2Loop_spec (fuel : Nat) : ∀ n : Nat, n ≤ fuel → n ≠ 0 →
    2 ^ log2Loop fuel n ≤ n ∧ n < 2 ^ (log2Loop fuel n + 1) := by
  induction fuel with
  | zero => intro n h h0; omega
  | succ f ih =>
    intro n h h0
    simp only [log2Loop]
    by_cases h2 : 2 ≤ n
    · rw [if_pos h2]
      obtain ⟨i1, i2⟩ := ih (n / 2) (by omega) (by omega)
      rw [pow_succ, pow_succ]
      rw [pow_succ] at i2
      constructor <;> omega
    · rw [if_neg h2]
      have : n = 1 := by omega
      subst this
      simp

theorem ilog2_le (n : Nat) (h : n ≠ 0) : 2 ^ ilog2 n ≤ n :=
  (log2Loop_spec n n le_rfl h).1

theorem lt_ilog2 (n : Nat) (h : n ≠ 0) : n < 2 ^ (ilog2 n + 1) :=
  (log2Loop_spec n n le_rfl h).2

/-- Rounding to nearest exceeds the exact quotient by at most one half. -/
theorem roundHalfEven_le (a d : Nat) (hd : 0 < d) :
    2 * (roundHalfEven a d * d) ≤ 2 * a + d := by
  have h := Nat.div_add_mod a d
  have hm : a % d < d := Nat.mod_lt a hd
  unfold roundHalfEven
  split_ifs with h1 h2 h3
  · rw [Nat.mul_comm (a / d) d]; omega
  · rw [Nat.add_mul, Nat.mul_comm (a / d) d]; omega
  · rw [Nat.mul_comm (a / d) d]; omega
  · rw [Nat.add_mul, Nat.mul_comm (a / d) d]; omega

/-- The rounded product exceeds the exact product by a relative error of at
most `2^-53`. -/
theorem flProduct_le (p : Nat) : flProduct p * 2 ^ 53 ≤ p * (2 ^ 53 + 1) := by
  unfold flProduct
  split_ifs with h
  · omega
  · have hp0 : p ≠ 0 := by
      intro h0; rw [h0] at h; simp at h
    have hL := ilog2_le p hp0
    have hU := lt_ilog2 p hp0
    have h53 : 53 ≤ ilog2 p := by
      by_contra hc
      have : ilog2 p + 1 ≤ 53 := by omega
      have := Nat.pow_le_pow_right (show 0 < 2 by norm_num) this
      omega
    have hsplit : 2 ^ ilog2 p = 2 ^ (ilog2 p - 52) * 2 ^ 52 := by
      rw [← pow_add]; congr 1; omega
    have hr := roundHalfEven_le p (2 ^ (ilog2 p - 52)) (by positivity)
    generalize roundHalfEven p (2 ^ (ilog2 p - 52)) = m at hr ⊢
    generalize 2 ^ (ilog2 p - 52) = d at hr hsplit ⊢
    rw [hsplit] at hL
    nlinarith

/-- The scaling chosen by `quotientExp` normalises the quotient: when the
rounded quotient is an integer, `a / (b * 2^k)` lies in `[2^52, 2^53)`. -/
theorem quotientExp_scaled_down (a b : Nat) (ha : a ≠ 0) (hb : 0 < b)
    (hk : quotientExp a b ≤ ilog2 a) :
    b * 2 ^ (ilog2 a - quotientExp a b) * 2 ^ 52 ≤ a ∧
      a < b * 2 ^ (ilog2 a - quotientExp a b) * 2 ^ 53 := by
  have hLa := ilog2_le a ha
  have hUa := lt_ilog2 a ha
  have hLb := ilog2_le b hb.ne'
  have hUb := lt_ilog2 b hb.ne'
  have hposB : 0 < 2 ^ ilog2 b := by positivity
  unfold quotientExp at hk ⊢
  split_ifs at hk ⊢ with hc
  · have hp : 2 ^ ilog2 a =
        2 ^ (ilog2 b + 1) * (2 ^ (ilog2 a - (ilog2 b + 52 + 1)) * 2 ^ 52) := by
      rw [← pow_add, ← pow_add]; congr 1; omega
    have hp2 : 2 ^ ilog2 a =
        2 ^ ilog2 b * (2 ^ (ilog2 a - (ilog2 b + 52 + 1)) * 2 ^ 53) := by
      rw [← pow_add, ← pow_add]; congr 1; omega
    constructor
    · calc b * 2 ^ (ilog2 a - (ilog2 b + 52 + 1)) * 2 ^ 52
          = b * (2 ^ (ilog2 a - (ilog2 b + 52 + 1)) * 2 ^ 52) := by ring
        _ ≤ 2 ^ (ilog2 b + 1) * (2 ^ (ilog2 a - (ilog2 b + 52 + 1)) * 2 ^ 52) :=
            Nat.mul_le_mul_right _ hUb.le
        _ = 2 ^ ilog2 a := hp.symm
        _ ≤ a := hLa
    · have h1 : a * 2 ^ ilog2 b <
          b * 2 ^ (ilog2 a - (ilog2 b + 52 + 1)) * 2 ^ 53 * 2 ^ ilog2 b := by
        calc a * 2 ^ ilog2 b < b * 2 ^ ilog2 a := hc
          _ = b * (2 ^ ilog2 b * (2 ^ (ilog2 a - (ilog2 b + 52 + 1)) * 2 ^ 53)) := by rw [hp2]
          _ = b * 2 ^ (ilog2 a - (ilog2 b + 52 + 1)) * 2 ^ 53 * 2 ^ ilog2 b := by ring
      exact Nat.lt_of_mul_lt_mul_right h1
  · rw [not_lt] at hc
    have hp : 2 ^ ilog2 a =
        2 ^ ilog2 b * (2 ^ (ilog2 a - (ilog2 b + 52 + 0)) * 2 ^ 52) := by
      rw [← pow_add, ← pow_add]; congr 1; omega
    have hp2 : 2 ^ (ilog2 a + 1) =
        2 ^ ilog2 b * (2 ^ (ilog2 a - (ilog2 b + 52 + 0)) * 2 ^ 53) := by
      rw [← pow_add, ← pow_add]; congr 1; omega
    constructor
    · have h1 : b * 2 ^ (ilog2 a - (ilog2 b + 52 + 0)) * 2 ^ 52 * 2 ^ ilog2 b ≤
          a * 2 ^ ilog2 b := by
        calc b * 2 ^ (ilog2 a - (ilog2 b + 52 + 0)) * 2 ^ 52 * 2 ^ ilog2 b
            = b * (2 ^ ilog2 b * (2 ^ (ilog2 a - (ilog2 b + 52 + 0)) * 2 ^ 52)) := by ring
          _ = b * 2 ^ ilog2 a := by rw [hp]
          _ ≤ a * 2 ^ ilog2 b := hc
      exact Nat.le_of_mul_le_mul_right h1 hposB
    · calc a < 2 ^ (ilog2 a + 1) := hUa
        _ = 2 ^ ilog2 b * (2 ^ (ilog2 a - (ilog2 b + 52 + 0)) * 2 ^ 53) := hp2
        _ ≤ b * (2 ^ (ilog2 a - (ilog2 b + 52 + 0)) * 2 ^ 53) := Nat.mul_le_mul_right _ hLb
        _ = b * 2 ^ (ilog2 a - (ilog2 b + 52 + 0)) * 2 ^ 53 := by ring

/-- The scaling chosen by `quotientExp` normalises the quotient: when the
rounded quotient has a fractional part, `a * 2^j / b` lies in `[2^52, 2^53)`. -/
theorem quotientExp_scaled_up (a b : Nat) (ha : a ≠ 0) (hb : 0 < b)
    (hk : ilog2 a < quotientExp a b) :
    b * 2 ^ 52 ≤ a * 2 ^ (quotientExp a b - ilog2 a) ∧
      a * 2 ^ (quotientExp a b - ilog2 a) < b * 2 ^ 53 := by
  have hLa := ilog2_le a ha
  have hUa := lt_ilog2 a ha
  have hLb := ilog2_le b hb.ne'
  have hUb := lt_ilog2 b hb.ne'
  have hposB : 0 < 2 ^ ilog2 b := by positivity
  unfold quotientExp at hk ⊢
  split_ifs at hk ⊢ with hc
  · have hp : 2 ^ ilog2 a * 2 ^ (ilog2 b + 52 + 1 - ilog2 a) = 2 ^ (ilog2 b + 1) * 2 ^ 52 := by
      rw [← pow_add, ← pow_add]; congr 1; omega
    have hp2 : 2 ^ ilog2 a * 2 ^ (ilog2 b + 52 + 1 - ilog2 a) = 2 ^ ilog2 b * 2 ^ 53 := by
      rw [← pow_add, ← pow_add]; congr 1; omega
    have hposJ : 0 < 2 ^ (ilog2 b + 52 + 1 - ilog2 a) := by positivity
    constructor
    · calc b * 2 ^ 52 ≤ 2 ^ (ilog2 b + 1) * 2 ^ 52 := Nat.mul_le_mul_right _ hUb.le
        _ = 2 ^ ilog2 a * 2 ^ (ilog2 b + 52 + 1 - ilog2 a) := hp.symm
        _ ≤ a * 2 ^ (ilog2 b + 52 + 1 - ilog2 a) := Nat.mul_le_mul_right _ hLa
    · have h1 : a * 2 ^ (ilog2 b + 52 + 1 - ilog2 a) * 2 ^ ilog2 b <
          b * 2 ^ 53 * 2 ^ ilog2 b := by
        calc a * 2 ^ (ilog2 b + 52 + 1 - ilog2 a) * 2 ^ ilog2 b
            = (a * 2 ^ ilog2 b) * 2 ^ (ilog2 b + 52 + 1 - ilog2 a) := by ring
          _ < (b * 2 ^ ilog2 a) * 2 ^ (ilog2 b + 52 + 1 - ilog2 a) :=
              Nat.mul_lt_mul_of_pos_right hc hposJ
          _ = b * (2 ^ ilog2 a * 2 ^ (ilog2 b + 52 + 1 - ilog2 a)) := by ring
          _ = b * (2 ^ ilog2 b * 2 ^ 53) := by rw [hp2]
          _ = b * 2 ^ 53 * 2 ^ ilog2 b := by ring
      exact Nat.lt_of_mul_lt_mul_right h1
  · rw [not_lt] at hc
    have hp : 2 ^ ilog2 a * 2 ^ (ilog2 b + 52 + 0 - ilog2 a) = 2 ^ ilog2 b * 2 ^ 52 := by
      rw [← pow_add, ← pow_add]; congr 1; omega
    have hp2 : 2 ^ (ilog2 a + 1) * 2 ^ (ilog2 b + 52 + 0 - ilog2 a) = 2 ^ ilog2 b * 2 ^ 53 := by
      rw [← pow_add, ← pow_add]; congr 1; omega
    have hposJ : 0 < 2 ^ (ilog2 b + 52 + 0 - ilog2 a) := by positivity
    constructor
    · have h1 : b * 2 ^ 52 * 2 ^ ilog2 b ≤
          a * 2 ^ (ilog2 b + 52 + 0 - ilog2 a) * 2 ^ ilog2 b := by
        calc b * 2 ^ 52 * 2 ^ ilog2 b = b * (2 ^ ilog2 b * 2 ^ 52) := by ring
          _ = b * (2 ^ ilog2 a * 2 ^ (ilog2 b + 52 + 0 - ilog2 a)) := by rw [hp]
          _ = (b * 2 ^ ilog2 a) * 2 ^ (ilog2 b + 52 + 0 - ilog2 a) := by ring
          _ ≤ (a * 2 ^ ilog2 b) * 2 ^ (ilog2 b + 52 + 0 - ilog2 a) :=
              Nat.mul_le_mul_right _ hc
          _ = a * 2 ^ (ilog2 b + 52 + 0 - ilog2 a) * 2 ^ ilog2 b := by ring
      exact Nat.le_of_mul_le_mul_right h1 hposB
    · calc a * 2 ^ (ilog2 b + 52 + 0 - ilog2 a)
          < 2 ^ (ilog2 a + 1) * 2 ^ (ilog2 b + 52 + 0 - ilog2 a) :=
            Nat.mul_lt_mul_of_pos_right hUa hposJ
        _ = 2 ^ ilog2 b * 2 ^ 53 := hp2
        _ ≤ b * 2 ^ 53 := Nat.mul_le_mul_right _ hLb

/-- The value of `(int)(a / b)` computed in double exceeds the exact quotient
by a relative error of at most `2^-53`. -/
theorem castQuotient_le (a b : Nat) (hb : 0 < b) :
    castQuotient a b * b * 2 ^ 53 ≤ a * (2 ^ 53 + 1) := by
  unfold castQuotient
  by_cases ha : a = 0
  · simp [ha]
  rw [if_neg ha]
  split_ifs with hk
  · -- the rounded quotient is an integer
    have hnorm := (quotientExp_scaled_down a b ha hb hk).1
    have hr := roundHalfEven_le a (b * 2 ^ (ilog2 a - quotientExp a b)) (by positivity)
    generalize roundHalfEven a (b * 2 ^ (ilog2 a - quotientExp a b)) = m at hr ⊢
    generalize 2 ^ (ilog2 a - quotientExp a b) = d at hr hnorm ⊢
    nlinarith
  · -- the rounded quotient has a fractional part, which the cast drops
    rw [not_le] at hk
    have hnorm := (quotientExp_scaled_up a b ha hb hk).1
    have hr := roundHalfEven_le (a * 2 ^ (quotientExp a b - ilog2 a)) b hb
    have hposJ : 0 < 2 ^ (quotientExp a b - ilog2 a) := by positivity
    have hdiv := Nat.div_mul_le_self (roundHalfEven (a * 2 ^ (quotientExp a b - ilog2 a)) b)
      (2 ^ (quotientExp a b - ilog2 a))
    generalize roundHalfEven (a * 2 ^ (quotientExp a b - ilog2 a)) b = m at hr hdiv ⊢
    generalize 2 ^ (quotientExp a b - ilog2 a) = J at hr hnorm hposJ hdiv ⊢
    generalize m / J = c at hdiv ⊢
    have h1 : c * b * 2 ^ 53 * J ≤ a * (2 ^ 53 + 1) * J := by nlinarith
    exact Nat.le_of_mul_le_mul_right h1 hposJ

/-- For an `int` `n > 1` and a draw in `[0, RAND_MAX]` the value that the code
computes in double lies in `[1, n]`: the two roundings cannot carry the
quotient up to `n`. -/
theorem sample_range (RAND_MAX n r : Int) (hn : 1 < n) (hn31 : n < 2 ^ 31)
    (hRM : 0 < RAND_MAX) (h0 : 0 ≤ r) (h1 : r ≤ RAND_MAX) :
    1 ≤ sample RAND_MAX n r ∧ sample RAND_MAX n r ≤ n := by
  obtain ⟨N, hN⟩ : ∃ N : Nat, n - 1 = (N : Int) := ⟨(n - 1).toNat, by omega⟩
  lift r to ℕ using h0
  lift RAND_MAX to ℕ using hRM.le
  have hM : 0 < RAND_MAX := by exact_mod_cast hRM
  have hrM : r ≤ RAND_MAX := by exact_mod_cast h1
  have hN31 : N < 2 ^ 31 := by
    have : (N : Int) < 2 ^ 31 := by omega
    exact_mod_cast this
  unfold sample
  rw [hN]
  have hprod : ((N : Int) * (r : Int)).natAbs = N * r := by
    rw [← Nat.cast_mul, Int.natAbs_ofNat]
  rw [hprod, Int.natAbs_ofNat, Int.sign_eq_one_of_pos hRM, mul_one]
  set c := castQuotient (flProduct (N * r)) RAND_MAX with hc
  have hsign : ((N : Int) * (r : Int)).sign = 0 ∨ ((N : Int) * (r : Int)).sign = 1 := by
    rcases Nat.eq_zero_or_pos (N * r) with h | h
    · left
      have : (N : Int) * (r : Int) = 0 := by exact_mod_cast h
      rw [this]; rfl
    · right
      exact Int.sign_eq_one_of_pos (by exact_mod_cast h)
  have hbound : c ≤ N := by
    have b1 := castQuotient_le (flProduct (N * r)) RAND_MAX hM
    have b2 := flProduct_le (N * r)
    have b3 : N * r ≤ N * RAND_MAX := Nat.mul_le_mul_left N hrM
    rw [← hc] at b1
    have h4 : c * (2 ^ 53 * 2 ^ 53) * RAND_MAX ≤ N * ((2 ^ 53 + 1) * (2 ^ 53 + 1)) * RAND_MAX := by
      calc c * (2 ^ 53 * 2 ^ 53) * RAND_MAX = (c * RAND_MAX * 2 ^ 53) * 2 ^ 53 := by ring
        _ ≤ (flProduct (N * r) * (2 ^ 53 + 1)) * 2 ^ 53 := Nat.mul_le_mul_right _ b1
        _ = (flProduct (N * r) * 2 ^ 53) * (2 ^ 53 + 1) := by ring
        _ ≤ (N * r * (2 ^ 53 + 1)) * (2 ^ 53 + 1) := Nat.mul_le_mul_right _ b2
        _ ≤ (N * RAND_MAX * (2 ^ 53 + 1)) * (2 ^ 53 + 1) :=
            Nat.mul_le_mul_right _ (Nat.mul_le_mul_right _ b3)
        _ = N * ((2 ^ 53 + 1) * (2 ^ 53 + 1)) * RAND_MAX := by ring
    have h5 := Nat.le_of_mul_le_mul_right h4 hM
    norm_num at h5 hN31
    omega
  have hc0 : (0 : Int) ≤ (c : Int) := Int.ofNat_nonneg c
  have hcN : (c : Int) ≤ (N : Int) := by exact_mod_cast hbound
  rcases hsign with h | h <;> rw [h] <;> constructor <;> omega

set_option maxRecDepth 10000 in
/-- Where the roundings matter: for n = 8400839 and the draw 2145591238 with
RAND_MAX = 2^31 - 1 the code obtains the base 8393436, one more than the
integer part of the exact quotient gives. -/
theorem sample_double_example :
    sample 2147483647 8400839 2145591238 = 8393436 ∧
      1 + (8400838 * 2145591238 : Int) / 2147483647 = 8393435 := by
  decide

/-- A value in `[1, n]` that the rejection loop accepts is a base in
`[2, n-1]` coprime to `n`. -/
theorem accepted_base (U : Util) (hG : U.GCDSpec) (n x : Int) (hn : 2 < n)
    (h1 : 1 ≤ x) (h2 : x ≤ n) (hacc : ¬ (U.GCD n x ≠ 1 ∨ x = 1)) :
    2 ≤ x ∧ x ≤ n - 1 ∧ Int.gcd n x = 1 := by
  rw [not_or, not_not] at hacc
  obtain ⟨hg, hx1⟩ := hacc
  rw [hG n x, if_neg (by omega)] at hg
  have hg1 : Int.gcd n x = 1 := by exact_mod_cast hg
  have hxn : x ≠ n := by
    intro h
    rw [h, Int.gcd_self] at hg1
    omega
  omega

theorem pickLoop_sound (U : Util) (hG : U.GCDSpec) (RAND_MAX n : Int) (hn : 2 < n)
    (hn31 : n < 2 ^ 31) (hRM : 0 < RAND_MAX) (rands : List Int) :
    (∀ r ∈ rands, 0 ≤ r ∧ r ≤ RAND_MAX) → ∀ x0 : Int, 1 ≤ x0 → x0 ≤ n →
      ∀ (x : Int) (k : Nat), pickLoop U RAND_MAX n rands x0 = some (x, k) →
        2 ≤ x ∧ x ≤ n - 1 ∧ Int.gcd n x = 1 := by
  induction rands with
  | nil =>
    intro _ x0 h1 h2 x k h
    simp only [pickLoop] at h
    split_ifs at h with hb
    simp only [Option.some.injEq, Prod.mk.injEq] at h
    rw [← h.1]
    exact accepted_base U hG n x0 hn h1 h2 hb
  | cons r rs ih =>
    intro hr x0 h1 h2 x k h
    simp only [pickLoop] at h
    split_ifs at h with hb
    · have hr0 := hr r (List.mem_cons_self r rs)
      obtain ⟨s1, s2⟩ := sample_range RAND_MAX n r (by omega) hn31 hRM hr0.1 hr0.2
      rw [Option.map_eq_some'] at h
      obtain ⟨⟨x2, k2⟩, hp, heq⟩ := h
      simp only [Prod.mk.injEq] at heq
      rw [← heq.1]
      exact ih (fun r2 h2 => hr r2 (List.mem_cons_of_mem r h2)) _ s1 s2 x2 k2 hp
    · simp only [Option.some.injEq, Prod.mk.injEq] at h
      rw [← h.1]
      exact accepted_base U hG n x0 hn h1 h2 hb

theorem pickLoop_complete (U : Util) (RAND_MAX n : Int) (rands : List Int) :
    ∀ x0 : Int, ((U.GCD n x0 = 1 ∧ x0 ≠ 1) ∨
        ∃ r ∈ rands, U.GCD n (sample RAND_MAX n r) = 1 ∧ sample RAND_MAX n r ≠ 1) →
      (pickLoop U RAND_MAX n rands x0).isSome = true := by
  induction rands with
  | nil =>
    intro x0 h
    rcases h with h | ⟨r, hr, -⟩
    · simp only [pickLoop]
      rw [if_neg (by rw [not_or, not_not]; exact h)]
      rfl
    · simp at hr
  | cons r rs ih =>
    intro x0 h
    simp only [pickLoop]
    split_ifs with hb
    · rw [Option.isSome_map']
      apply ih
      rcases h with h | ⟨r2, hr2, hgood⟩
      · exfalso
        rcases hb with hb | hb
        · exact hb h.1
        · exact h.2 hb
      · rcases List.mem_cons.mp hr2 with rfl | hmem
        · exact Or.inl hgood
        · exact Or.inr ⟨r2, hmem, hgood⟩
    · rfl

/-- C6. For an `int` n > 2 and draws r in [0, RAND_MAX]: whenever base
selection terminates, the base x = 1 + (int)((n-1)*r/RAND_MAX) that leaves the
rejection loop, computed in double as the code computes it, satisfies
2 ≤ x ≤ n-1 and gcd(n, x) = 1; and base selection does terminate as soon as
one of the draws gives a value other than 1 that `GCD` reports coprime to n. -/
theorem C6_base_in_range_and_coprime (U : Util) (hG : U.GCDSpec) (RAND_MAX n : Int)
    (rands : List Int) (hn : 2 < n) (hn31 : n < 2 ^ 31) (hRM : 0 < RAND_MAX)
    (hr : ∀ r ∈ rands, 0 ≤ r ∧ r ≤ RAND_MAX) :
    (∀ (x : Int) (k : Nat), pickBase U RAND_MAX n rands = some (x, k) →
      2 ≤ x ∧ x ≤ n - 1 ∧ Int.gcd n x = 1) ∧
    ((∃ r ∈ rands, U.GCD n (sample RAND_MAX n r) = 1 ∧ sample RAND_MAX n r ≠ 1) →
      (pickBase U RAND_MAX n rands).isSome = true) := by
  cases rands with
  | nil =>
    refine ⟨?_, ?_⟩
    · intro x k h; simp [pickBase] at h
    · rintro ⟨r, hr, -⟩; simp at hr
  | cons r rs =>
    have hr0 := hr r (List.mem_cons_self r rs)
    obtain ⟨s1, s2⟩ := sample_range RAND_MAX n r (by omega) hn31 hRM hr0.1 hr0.2
    refine ⟨?_, ?_⟩
    · intro x k h
      simp only [pickBase] at h
      rw [Option.map_eq_some'] at h
      obtain ⟨⟨x2, k2⟩, hp, heq⟩ := h
      simp only [Prod.mk.injEq] at heq
      rw [← heq.1]
      exact pickLoop_sound U hG RAND_MAX n hn hn31 hRM rs
        (fun r2 h2 => hr r2 (List.mem_cons_of_mem r h2)) _ s1 s2 x2 k2 hp
    · rintro ⟨r2, hr2, hgood⟩
      simp only [pickBase]
      rw [Option.isSome_map']
      apply pickLoop_complete
      rcases List.mem_cons.mp hr2 with rfl | hmem
      · exact Or.inl hgood
      · exact Or.inr ⟨r2, hmem, hgood⟩

set_option maxRecDepth 10000 in
theorem C6_witness :
    (2 : Int) < 8393853 ∧ (8393853 : Int) < 2 ^ 31 ∧ (0 : Int) < 2147483647 ∧
      pickBase util 2147483647 8393853 [2147483647, 0, 2146704614, 1073741824] =
        some (4196927, 4) ∧
      (2 : Int) ≤ 4196927 ∧ (4196927 : Int) ≤ 8393853 - 1 ∧ Int.gcd 8393853 4196927 = 1 :=
  ⟨by decide, by decide, by decide, by decide,
    (C6_base_in_range_and_coprime util util_GCDSpec 2147483647 8393853
      [2147483647, 0, 2146704614, 1073741824]
      (by decide) (by decide) (by decide) (by decide)).1 4196927 4 (by decide)⟩

/-! ## C2, C9: validation of the input -/

theorem rejects_of_validate (U : Util) (n : Int) (e : Msg) (h : validate U n = some e) :
    Rejects U n := by
  intro RM g rands meas fuel
  unfold main
  rw [h]
  exact ⟨rfl, rfl, rfl⟩

/-- The primality test modelled from the spec accepts every prime. -/
theorem TestPrime_of_prime (p : Nat) (hp : p.Prime) : TestPrime (p : Int) = true := by
  unfold TestPrime
  simp only [Int.toNat_ofNat, decide_eq_true_eq, List.all_eq_true,
    List.mem_range, Bool.or_eq_true]
  intro i hi
  by_cases hi2 : i < 2
  · exact Or.inl (Or.inl hi2)
  · right
    intro hmod
    have hdvd : i ∣ p := Nat.dvd_of_mod_eq_zero hmod
    rcases (Nat.dvd_prime hp).mp hdvd with h | h <;> omega

/-- From 2 on, the primality test modelled from the spec accepts only primes. -/
theorem prime_of_TestPrime (n : Int) (h2 : 2 ≤ n) (h : TestPrime n = true) : n.toNat.Prime := by
  unfold TestPrime at h
  simp only [decide_eq_true_eq, List.all_eq_true,
    List.mem_range, Bool.or_eq_true] at h
  rw [Nat.prime_def_le_sqrt]
  refine ⟨by omega, ?_⟩
  intro m hm2 hmsq hdvd
  have hmm : m * m ≤ n.toNat := Nat.le_sqrt.mp hmsq
  have hlt : m < n.toNat := by nlinarith
  rcases h m hlt with (h | h) | h
  · omega
  · omega
  · exact h (Nat.mod_eq_zero_of_dvd hdvd)

/-- The prime-power test modelled from the spec accepts `p^k` for every prime
`p` and `k ≥ 2`. -/
theorem TestPrimePower_of_pow (p k : Nat) (hp : p.Prime) (hk : 2 ≤ k) :
    TestPrimePower ((p : Int) ^ k) = true := by
  unfold TestPrimePower
  have hcast : ((p : Int) ^ k).toNat = p ^ k := by
    rw [← Nat.cast_pow, Int.toNat_ofNat]
  rw [hcast]
  simp only [List.any_eq_true, List.mem_range, Bool.and_eq_true, decide_eq_true_eq]
  have hp2 := hp.two_le
  have hplt : p < p ^ k := by
    calc p = p ^ 1 := (pow_one p).symm
      _ < p ^ k := Nat.pow_lt_pow_right hp2 (by omega)
  have hklt : k < p ^ k := Nat.lt_pow_self hp2 k
  exact ⟨p, hplt, TestPrime_of_prime p hp, k, hklt, hk, by push_cast; rfl⟩

/-- C2. Every input n that is even, or prime, or a prime power p^k with k ≥ 2
is rejected by `main` before the base is picked and before any trial runs; in
particular 14, 17 and 9 are rejected. -/
theorem C2_invalid_inputs_rejected (n : Int)
    (h : 2 ∣ n ∨ (∃ p : Nat, p.Prime ∧ n = (p : Int)) ∨
      (∃ p k : Nat, p.Prime ∧ 2 ≤ k ∧ n = (p : Int) ^ k)) :
    Rejects util n ∧ Rejects util 14 ∧ Rejects util 17 ∧ Rejects util 9 := by
  refine ⟨?_, rejects_of_validate util 14 Msg.errorEven (by decide),
    rejects_of_validate util 17 Msg.errorPrime (by decide),
    rejects_of_validate util 9 Msg.errorPrimePower (by decide)⟩
  by_cases heven : n.tmod 2 = 0
  · exact rejects_of_validate util n Msg.errorEven (by simp [validate, heven])
  · by_cases hprime : TestPrime n = true
    · exact rejects_of_validate util n Msg.errorPrime
        (by
          simp only [validate, if_neg heven]
          rw [if_pos (show util.TestPrime n = true from hprime)])
    · rcases h with h | ⟨p, hp, rfl⟩ | ⟨p, k, hp, hk, rfl⟩
      · exact absurd (Int.tmod_eq_zero_of_dvd h) heven
      · exact absurd (TestPrime_of_prime p hp) hprime
      · exact rejects_of_validate util _ Msg.errorPrimePower
          (by
            simp only [validate, if_neg heven]
            rw [if_neg (show ¬ util.TestPrime ((p : Int) ^ k) = true from hprime),
              if_pos (show util.TestPrimePower ((p : Int) ^ k) = true from
                TestPrimePower_of_pow p k hp hk)])

theorem C2_witness :
    (∃ p k : Nat, p.Prime ∧ 2 ≤ k ∧ (9 : Int) = (p : Int) ^ k) ∧ Rejects util 9 :=
  ⟨⟨3, 2, Nat.prime_three, le_refl 2, by norm_num⟩,
    (C2_invalid_inputs_rejected 9
      (Or.inr (Or.inr ⟨3, 2, Nat.prime_three, le_refl 2, by norm_num⟩))).1⟩

/-- In every run, the trial with index `j` (0 for the first trial) leaves in
the pending vector of register two, at each residue `v`, `j + 1` times the
number of indices `a < q` with `x^a mod n = v`: the vector is not cleared
between trials.  The bookkeeping array holds `modex[a] = x^a mod n` in every
trial. -/
theorem amplitudes_in_trial (U : Util) (hM : U.modexpSpec) (RAND_MAX : Int) (g : Garbage)
    (n : Int) (rands : List Int) (meas : Nat → Meas) (fuel : Nat) (hn : 0 < n)
    (j : Nat) (T : Trial)
    (hT : (main U RAND_MAX g n rands meas fuel).trials[j]? = some T) :
    (∀ v : Int, T.vars.mdx v =
      ⟨((j + 1 : Nat) : ℚ) * (((Finset.range (U.GetQ n)).filter
        (fun a : Nat => T.x ^ a % n = v)).card : ℚ), 0⟩) ∧
    (∀ a : Nat, a < U.GetQ n → T.vars.modex a = T.x ^ a % n) := by
  have hmod : ∀ (x : Int) (a : Nat), U.modexp x (a : Int) n = x ^ a % n := by
    intro x a
    rw [hM x (a : Int) n (by positivity) hn, Int.toNat_ofNat]
  unfold main at hT
  split at hT
  · simp at hT
  · split at hT
    · simp at hT
    · rename_i x k hp
      simp only at hT
      have hx : T.x = x := by
        have hmem : T ∈ (mainLoop U n (U.GetQ n) meas k fuel (initVars g x)).trials :=
          List.getElem?_mem hT
        exact (mainLoop_base U n (U.GetQ n) meas k fuel (initVars g x)).2 T hmem
      have h0 : ∀ v : Int, (initVars g x).mdx v =
          ⟨((0 : Nat) : ℚ) * (((Finset.range (U.GetQ n)).filter
            (fun a : Nat => U.modexp (initVars g x).x (a : Int) n = v)).card : ℚ), 0⟩ := by
        intro v
        simp [initVars]
      obtain ⟨t1, t2⟩ :=
        mainLoop_mdx U n (U.GetQ n) meas k fuel (initVars g x) 0 h0 j T hT
      have hxi : (initVars g x).x = x := rfl
      rw [hxi] at t1 t2
      simp only [hmod] at t1 t2
      rw [hx]
      refine ⟨?_, t2⟩
      intro v
      rw [t1 v]
      simp

set_option maxRecDepth 100000 in
/-- C8 fails on a retry. For n = 15 with base 7 (q = 256), in the run whose
first trial measures 0, the first trial is retried and leaves amplitude 64 at
residue 1 in the pending vector of register two, which is the number of
indices a in 0..255 with 7^a mod 15 = 1; the second trial adds 64 more and
leaves 128 there. -/
theorem C8_retry_amplitude_doubled :
    ((Finset.range 256).filter (fun a : Nat => (7 : Int) ^ a % 15 = 1)).card = 64 ∧
      (main util 32767 ⟨0, fun _ => 0⟩ 15 [15000]
        (fun k => if k = 0 then ⟨1, 0, 0⟩ else ⟨1, 64, 4⟩) 6).trials.map
        (fun T => (T.x, T.vars.done, T.vars.mdx 1)) =
          [(7, 0, ⟨64, 0⟩), (7, 1, ⟨128, 0⟩)] := by
  have hcard : ((Finset.range 256).filter (fun a : Nat => (7 : Int) ^ a % 15 = 1)).card = 64 := by
    decide
  refine ⟨hcard, ?_⟩
  have hlen : (main util 32767 ⟨0, fun _ => 0⟩ 15 [15000]
      (fun k => if k = 0 then ⟨1, 0, 0⟩ else ⟨1, 64, 4⟩) 6).trials.length = 2 := by decide
  have hdone : (main util 32767 ⟨0, fun _ => 0⟩ 15 [15000]
      (fun k => if k = 0 then ⟨1, 0, 0⟩ else ⟨1, 64, 4⟩) 6).trials.map
      (fun T => (T.x, T.vars.done)) = [(7, 0), (7, 1)] := by decide
  have hq : util.GetQ 15 = 256 := by decide
  have hamp := amplitudes_in_trial util util_modexpSpec 32767 ⟨0, fun _ => 0⟩ 15 [15000]
    (fun k => if k = 0 then ⟨1, 0, 0⟩ else ⟨1, 64, 4⟩) 6 (by decide)
  obtain ⟨T0, T1, hl⟩ := List.length_eq_two.mp hlen
  rw [hl] at hdone hamp ⊢
  simp only [List.map_cons, List.map_nil, List.cons.injEq, Prod.mk.injEq, and_true] at hdone
  obtain ⟨⟨hx0, hd0⟩, hx1, hd1⟩ := hdone
  have h0 := (hamp 0 T0 rfl).1 1
  have h1 := (hamp 1 T1 rfl).1 1
  rw [hx0, hq, hcard] at h0
  rw [hx1, hq, hcard] at h1
  simp only [List.map_cons, List.map_nil, hx0, hx1, hd0, hd1, h0, h1]
  norm_num

end Shor
